import Mathlib

/-!
Verification of the greptor content store and enrichment pipeline.

This file gives a shallow embedding, in Lean 4, of the core of the
greptor repository: the document reference deriver, the file-backed
content store (raw and processed layers), the ingestion entry point
(eat), the crash-recovery reconciliation, and one worker-loop iteration
of the background enrichment pool.

Modelling conventions:
 - JavaScript strings are modelled as lists of characters (Str).
   JS string operations (slice, indexOf, startsWith, trim, toLowerCase,
   replace) are translated to the corresponding list operations.
   JS toLowerCase and trim are modelled with Lean's ASCII Char.toLower
   and Char.isWhitespace; the inputs of interest are ASCII.
 - JS Date values are modelled by their UTC calendar date (year, month
   as 1..12, day) plus the rendered time-of-day part of toISOString.
   Invalid dates are outside the model.
 - The filesystem layer is modelled as an association list from a
   relative path to the file's content; writeFile is an upsert.
   I/O failures are injected explicitly where the source catches them.
 - The external YAML library (the yaml npm package) is modelled on the
   fragment the store actually emits: a top-level mapping whose values
   are plain scalars (strings, integers, booleans) or block sequences
   of plain string scalars.  The round-trip theorems restrict their
   hypotheses to values that survive this fragment, mirroring the
   spec's own carve-out for YAML scalar coercion.
 - JS numbers inside tags are modelled as integers; floating point is
   out of scope.
-/

namespace Greptor

/-- JS strings are modelled as lists of characters. -/
abbrev Str := List Char

/-- Characters allowed by the sanitizer: the regex class [a-z0-9]. -/
def isLowerAlnum (c : Char) : Bool :=
  ('a' ≤ c && c ≤ 'z') || ('0' ≤ c && c ≤ '9')

/-- Model of JS String.prototype.trim: drop whitespace from both ends. -/
def trimChars (s : Str) : Str :=
  ((s.dropWhile Char.isWhitespace).reverse.dropWhile Char.isWhitespace).reverse

/-- Model of JS String.prototype.trimEnd: drop trailing whitespace. -/
def trimEndChars (s : Str) : Str :=
  (s.reverse.dropWhile Char.isWhitespace).reverse

/-- Model of replace(/[^a-z0-9]+/g, "-"): every maximal run of characters
outside [a-z0-9] becomes a single hyphen.  The flag records whether the
previous character was part of such a run. -/
def collapseNonAlnum : Bool → Str → Str
  | _, [] => []
  | inRun, c :: rest =>
    if isLowerAlnum c then c :: collapseNonAlnum false rest
    else if inRun then collapseNonAlnum true rest
    else '-' :: collapseNonAlnum true rest

/-- Model of replace(/^-+/, ""): strip the leading hyphen run. -/
def dropLeadingHyphens (s : Str) : Str := s.dropWhile (· == '-')

/-- Model of the regex replace stripping the trailing hyphen run. -/
def dropTrailingHyphens (s : Str) : Str :=
  (s.reverse.dropWhile (· == '-')).reverse

/-- Model of the global regex replace collapsing hyphen runs to single
hyphens. -/
def collapseHyphenRuns : Bool → Str → Str
  | _, [] => []
  | inRun, c :: rest =>
    if c == '-' then
      if inRun then collapseHyphenRuns true rest
      else '-' :: collapseHyphenRuns true rest
    else c :: collapseHyphenRuns false rest

/-- The sanitize pipeline from createFileStorage, before the final
empty-string fallback: trim, lowercase, collapse non-alphanumeric runs
to hyphens, strip leading/trailing hyphen runs, collapse hyphen runs,
then cap the length with slice(0, maxLength). -/
def sanitizeCore (name : Str) (maxLength : Nat) : Str :=
  let trimmed := trimChars name
  let s1 := collapseNonAlnum false (trimmed.map Char.toLower)
  let s2 := dropTrailingHyphens (dropLeadingHyphens s1)
  let s3 := collapseHyphenRuns false s2
  if s3.length > maxLength then s3.take maxLength else s3

/-- sanitize(name, maxLength, fallback) from createFileStorage: the
pipeline result, or the fallback when that result is empty. -/
def sanitize (name : Str) (maxLength : Nat) (fallback : Str) : Str :=
  let s := sanitizeCore name maxLength
  if s.isEmpty then fallback else s

/-- Fuel-driven accumulator loop producing decimal digits, most
significant first. -/
def natToCharsAux : Nat → Nat → Str → Str
  | 0, _, acc => acc
  | fuel + 1, n, acc =>
    let d := Nat.digitChar (n % 10)
    if n / 10 = 0 then d :: acc else natToCharsAux fuel (n / 10) (d :: acc)

/-- Decimal digit characters of a natural number, most significant
first; model of JS String(n) for a non-negative integer. -/
def natToChars (n : Nat) : Str :=
  if n = 0 then ['0'] else natToCharsAux n n []

/-- Model of JS String(n).padStart(width, "0"). -/
def padNat (width n : Nat) : Str :=
  let ds := natToChars n
  List.replicate (width - ds.length) '0' ++ ds

/-- Decimal rendering of a JS integer-valued number. -/
def intToChars (n : Int) : Str :=
  if n < 0 then '-' :: natToChars n.natAbs else natToChars n.toNat

/-- A JS Date, reduced to what the pipeline observes: the UTC calendar
date (getUTCFullYear, getUTCMonth()+1, getUTCDate) and the time-of-day
part of toISOString (everything after the 'T').  Invalid dates are
outside the model. -/
structure JsDate where
  year : Nat
  month : Nat
  day : Nat
  time : Str
deriving DecidableEq, Repr

/-- Model of toISOString().split("T")[0]: the date part never contains
a 'T', so the split yields exactly the date prefix. -/
def isoDateChars (d : JsDate) : Str :=
  padNat 4 d.year ++ '-' :: (padNat 2 d.month ++ '-' :: padNat 2 d.day)

/-- getYearMonthSegment from createFileStorage: unpadded year, then a
hyphen, then the zero-padded month. -/
def yearMonthChars (d : JsDate) : Str :=
  natToChars d.year ++ '-' :: padNat 2 d.month

/-- Model of toISOString(): the date part, 'T', then the stored
time-of-day part (for example 10:00:00.000Z). -/
def isoTimestampChars (d : JsDate) : Str :=
  isoDateChars d ++ 'T' :: d.time

/-- The fallback token "unknown" used throughout the deriver. -/
def unknownChars : Str := "unknown".toList

/-- Argument record of generateDocumentRef in createFileStorage. -/
structure RefArgs where
  id : Option Str
  label : Str
  source : Str
  publisher : Option Str
  timestamp : Option JsDate

/-- The path segments generateDocumentRef joins: sanitized source,
the optional sanitized publisher (skipped when the publisher string is
falsy, i.e. empty), the year-month folder, and the file name
isoDate-safeTitle.md.  The label's sanitize fallback is the sanitized
id, itself falling back to "unknown".  The ambient clock now stands for
new Date() when no timestamp is supplied. -/
def refSegments (now : JsDate) (args : RefArgs) : List Str :=
  let t := args.timestamp.getD now
  let isoDate := isoDateChars t
  let safeId := sanitize (args.id.getD []) 50 unknownChars
  let safeTitle := sanitize args.label 50 safeId
  let yearMonth := yearMonthChars t
  let src := sanitize args.source 20 unknownChars
  let pub : Option Str :=
    match args.publisher with
    | some p => if p.isEmpty then none else some (sanitize p 50 unknownChars)
    | none => none
  let fileName := isoDate ++ '-' :: (safeTitle ++ ".md".toList)
  src :: ((match pub with | some p => [p] | none => []) ++ [yearMonth, fileName])

/-- Model of path.posix.join over nonempty slash-free segments:
interpose a slash between consecutive segments. -/
def joinPath : List Str → Str
  | [] => []
  | [s] => s
  | s :: rest => s ++ '/' :: joinPath rest

/-- generateDocumentRef from createFileStorage (config.ts lines
157-182). -/
def generateDocumentRef (now : JsDate) (args : RefArgs) : Str :=
  joinPath (refSegments now args)

/-- A tag value (TagValueType from types.ts): a string, a number
(modelled as an integer), a boolean, or an array of strings.  Dates and
numeric arrays inside tags are not needed by any claim and are omitted
from the value model. -/
inductive TagValue where
  | str (s : Str)
  | num (n : Int)
  | boolean (b : Bool)
  | arr (items : List Str)
deriving DecidableEq, Repr

/-- Tags (a JS object) as an association list in key insertion order. -/
abbrev Tags := List (Str × TagValue)

/-- A JS object property value that may be undefined; YAML.stringify
skips undefined-valued keys (the yaml package's keepUndefined default). -/
inductive HVal where
  | undef
  | val (v : TagValue)
deriving DecidableEq, Repr

/-- JS object property assignment: an existing key keeps its position
and gets the new value, a new key is appended.  This is the semantics
of object literals with spreads. -/
def jsUpsert (obj : List (Str × HVal)) (k : Str) (v : HVal) : List (Str × HVal) :=
  if obj.any (fun p => p.1 == k) then
    obj.map (fun p => if p.1 == k then (p.1, v) else p)
  else obj ++ [(k, v)]

/-- GreptorEatInput from types.ts.  format is a free string because the
runtime check in eat compares it against "text"; absent optional fields
are modelled as none / the empty list / false. -/
structure EatInput where
  content : Str
  format : Str
  label : Str
  source : Str
  publisher : Option Str
  id : Option Str
  creationDate : Option JsDate
  tags : Tags
  overwrite : Bool
deriving DecidableEq, Repr

/-- The YAML header object of buildRawFileContent (config.ts lines
184-194): the literal writes id, title and created_at, then spreads the
caller's tags, then writes source, then publisher when truthy.  Spread
and later keys overwrite earlier values in place (jsUpsert). -/
def buildYamlHeader (now : JsDate) (i : EatInput) : List (Str × HVal) :=
  let base : List (Str × HVal) :=
    [("id".toList, match i.id with | some s => .val (.str s) | none => .undef),
     ("title".toList, .val (.str i.label)),
     ("created_at".toList, .val (.str (isoTimestampChars (i.creationDate.getD now))))]
  let withTags := i.tags.foldl (fun o p => jsUpsert o p.1 (.val p.2)) base
  let withSource := jsUpsert withTags "source".toList (.val (.str i.source))
  match i.publisher with
  | some p =>
    if p.isEmpty then withSource
    else jsUpsert withSource "publisher".toList (.val (.str p))
  | none => withSource

/-- The key-value pairs that actually appear in the serialized header:
undefined values are skipped by YAML.stringify. -/
def visibleHeader (h : List (Str × HVal)) : Tags :=
  h.filterMap (fun p => match p.2 with
    | .undef => none
    | .val v => some (p.1, v))

/-- Rendering "true" / "false". -/
def boolChars (b : Bool) : Str :=
  if b then "true".toList else "false".toList

/-- Model of YAML.stringify on the emitted fragment, line by line:
each scalar pair renders as one line key, colon, space, value; an empty
array renders inline; a nonempty array of strings renders as a block
sequence of two-space-indented dash items; undefined pairs are skipped. -/
def yamlLines : List (Str × HVal) → List Str
  | [] => []
  | (_, .undef) :: rest => yamlLines rest
  | (k, .val (.str s)) :: rest => (k ++ ':' :: ' ' :: s) :: yamlLines rest
  | (k, .val (.num n)) :: rest => (k ++ ':' :: ' ' :: intToChars n) :: yamlLines rest
  | (k, .val (.boolean b)) :: rest => (k ++ ':' :: ' ' :: boolChars b) :: yamlLines rest
  | (k, .val (.arr [])) :: rest => (k ++ ':' :: ' ' :: '[' :: [']']) :: yamlLines rest
  | (k, .val (.arr (it :: its))) :: rest =>
    (k ++ [':']) ::
      ((it :: its).map (fun item => ' ' :: ' ' :: '-' :: ' ' :: item) ++ yamlLines rest)

/-- Join lines with newline separators. -/
def joinNl : List Str → Str
  | [] => []
  | [l] => l
  | l :: rest => l ++ '\n' :: joinNl rest

/-- Model of YAML.stringify output for the header object: the rendered
lines joined by newlines, with the library's trailing newline. -/
def yamlStringify (h : List (Str × HVal)) : Str :=
  joinNl (yamlLines h) ++ ['\n']

/-- buildRawFileContent (config.ts lines 184-205): the lines
["---", trimmed header, "---", "", trimmed content] joined with
newlines. -/
def buildRawFileContent (now : JsDate) (i : EatInput) : Str :=
  let header := trimChars (yamlStringify (buildYamlHeader now i))
  "---\n".toList ++ header ++ "\n---\n\n".toList ++ trimChars i.content

/-- Model of JS indexOf(pat, from) restricted to the suffix: the least
position at or after the starting index where pat occurs, scanning the
given suffix of the subject. -/
def findFrom (pat : Str) : Str → Nat → Option Nat
  | [], i => if pat.isPrefixOf ([] : Str) then some i else none
  | c :: t, i =>
    if pat.isPrefixOf (c :: t) then some i else findFrom pat t (i + 1)

/-- Split a character list at newlines. -/
def splitNl : Str → List Str
  | [] => [[]]
  | c :: t =>
    if c = '\n' then [] :: splitNl t
    else
      match splitNl t with
      | [] => [[c]]
      | l :: ls => (c :: l) :: ls

/-- A line consisting solely of whitespace. -/
def isBlankLine (l : Str) : Bool := l.all Char.isWhitespace

/-- Parse of an unquoted decimal natural number. -/
def parseNatChars (s : Str) : Option Nat :=
  if s ≠ [] ∧ s.all Char.isDigit then
    some (s.foldl (fun a c => a * 10 + (c.toNat - 48)) 0)
  else none

/-- Parse of an unquoted decimal integer. -/
def parseIntChars (s : Str) : Option Int :=
  match s with
  | [] => none
  | c :: t =>
    if c = '-' then (parseNatChars t).map (fun n => -(Int.ofNat n))
    else (parseNatChars (c :: t)).map (fun n => Int.ofNat n)

/-- YAML plain-scalar coercion on the modelled fragment: the literals
true and false become booleans, decimal integers become numbers,
everything else stays a string. -/
def parseScalarChars (v : Str) : TagValue :=
  if v = "true".toList then .boolean true
  else if v = "false".toList then .boolean false
  else
    match parseIntChars v with
    | some n => .num n
    | none => .str v

/-- Characters acceptable in a mapping key of the modelled fragment
(snake_case identifiers). -/
def safeKeyChar (c : Char) : Bool := isLowerAlnum c || c == '_'

/-- A well-formed mapping key of the modelled fragment. -/
def safeKey (k : Str) : Bool := !k.isEmpty && k.all safeKeyChar

/-- Split a line at its first colon. -/
def splitFirstColon (accRev : Str) : Str → Option (Str × Str)
  | [] => none
  | c :: t => if c = ':' then some (accRev.reverse, t) else splitFirstColon (c :: accRev) t

/-- Classification of the remainder of a key line after the colon. -/
inductive LineKind where
  | scalarV (v : Str)
  | emptyA
  | openBlock
deriving DecidableEq, Repr

/-- Recognize a mapping line of the modelled fragment: a safe key, a
colon, then either nothing (opening a block sequence), an inline empty
array, or a space and a plain scalar. -/
def keyLine (l : Str) : Option (Str × LineKind) :=
  match splitFirstColon [] l with
  | none => none
  | some (k, after) =>
    if safeKey k then
      match after with
      | [] => some (k, .openBlock)
      | ' ' :: v => if v = "[]".toList then some (k, .emptyA) else some (k, .scalarV v)
      | _ => none
    else none

/-- Leading block-sequence item lines (two spaces, dash, space, item),
together with the remaining lines and a bound used for termination. -/
def takeItems : (lines : List Str) → { p : List Str × List Str // p.2.length ≤ lines.length }
  | [] => ⟨([], []), by simp⟩
  | l :: rest =>
    if "  - ".toList.isPrefixOf l then
      let r := takeItems rest
      ⟨((l.drop 4) :: r.1.1, r.1.2), Nat.le_succ_of_le r.2⟩
    else ⟨([], l :: rest), by simp⟩

/-- Parse a sequence of mapping lines of the modelled fragment into an
association list of tags; each step consumes at least the key line, so
the number of lines is enough fuel. -/
def parsePairsAux : Nat → List Str → Option Tags
  | _, [] => some []
  | 0, _ :: _ => none
  | Nat.succ fuel, l :: rest =>
    match keyLine l with
    | none => none
    | some (k, .scalarV v) =>
      (parsePairsAux fuel rest).map (fun t => (k, parseScalarChars v) :: t)
    | some (k, .emptyA) =>
      (parsePairsAux fuel rest).map (fun t => (k, TagValue.arr []) :: t)
    | some (k, .openBlock) =>
      let r := takeItems rest
      if r.1.1.isEmpty then none
      else (parsePairsAux fuel r.1.2).map (fun t => (k, TagValue.arr r.1.1) :: t)

/-- parsePairs with the canonical fuel. -/
def parsePairs (lines : List Str) : Option Tags :=
  parsePairsAux lines.length lines

/-- What a YAML document of the modelled fragment parses to: a mapping,
a sequence, a scalar, or null; none stands for a parse error. -/
inductive YamlVal where
  | vmap (m : Tags)
  | vlist
  | vscalar
  | vnull
deriving DecidableEq, Repr

/-- A single line that is no mapping is a plain scalar document. -/
def miniYamlScalarCheck (l : Str) (rest : List Str) : Option YamlVal :=
  match rest with
  | [] => if (keyLine l).isNone then some .vscalar else none
  | _ => none

/-- Classify a nonempty block of nonblank lines: a sequence, a mapping,
or a scalar; none stands for a parse error. -/
def miniYamlBody (l : Str) (rest : List Str) : Option YamlVal :=
  if "- ".toList.isPrefixOf l || l = ['-'] then some .vlist
  else
    match parsePairs (l :: rest) with
    | some m => some (.vmap m)
    | none => miniYamlScalarCheck l rest

/-- Model of YAML.parse on the modelled fragment, classifying the
document shape the way readRawContent's object check observes it. -/
def miniYamlParse (s : Str) : Option YamlVal :=
  let lines := (splitNl s).filter (fun l => !isBlankLine l)
  match lines with
  | [] => some .vnull
  | l :: rest => miniYamlBody l rest

/-- The delimiter search readRawContent performs: the first "\n---" at
or after index 4 (JS indexOf with fromIndex 4). -/
def headerEnd (file : Str) : Option Nat :=
  findFrom "\n---".toList (file.drop 4) 4

/-- The header text readRawContent cuts out for a given end index:
slice(4, endIndex) with trailing whitespace removed. -/
def headerSliceAt (file : Str) (e : Nat) : Str :=
  trimEndChars ((file.take e).drop 4)

/-- The body readRawContent returns for a given end index: the text
after the closing delimiter with one leading newline dropped. -/
def bodyAfter (file : Str) (e : Nat) : Str :=
  match file.drop (e + 4) with
  | '\n' :: t => t
  | a => a

/-- The shape check readRawContent applies once the delimiters are
located: the parsed header must be an object that is neither null nor
an array. -/
def readRawAfterEnd (file : Str) (endIndex : Nat) : Except Str (Tags × Str) :=
  match miniYamlParse (headerSliceAt file endIndex) with
  | some (.vmap m) => .ok (m, bodyAfter file endIndex)
  | _ => .error "Invalid raw file format: non-object yaml header.".toList

/-- readRawContent (config.ts lines 282-317), given the raw file's
text: require the file to start with a "---" line, locate the first
"\n---" at or after index 4, then cut, parse and shape-check the
header.  The error payloads carry the source's message texts. -/
def readRawContent (file : Str) : Except Str (Tags × Str) :=
  if !("---\n".toList.isPrefixOf file) then
    .error "Invalid raw file format: no yaml header.".toList
  else
    match headerEnd file with
    | none => .error "Invalid raw file format: no yaml header.".toList
    | some endIndex => readRawAfterEnd file endIndex

/-- The raw (or processed) layer on disk: an association list from the
reference path to the file content.  writeFile is an upsert. -/
abbrev Store := List (Str × Str)

/-- fileExists / readFile on the modelled layer. -/
def storeLookup (st : Store) (k : Str) : Option Str :=
  (st.find? (fun p => p.1 == k)).map (fun p => p.2)

/-- writeFile on the modelled layer: overwrite in place or append. -/
def storeWrite (st : Store) (k v : Str) : Store :=
  if st.any (fun p => p.1 == k) then
    st.map (fun p => if p.1 == k then (p.1, v) else p)
  else st ++ [(k, v)]

/-- The reference saveRawContent derives for an input (config.ts lines
247-253): the caller's id defaulted to "unknown", and the publisher and
timestamp spread in only when truthy / present. -/
def refOfInput (now : JsDate) (i : EatInput) : Str :=
  generateDocumentRef now
    { id := some (i.id.getD unknownChars)
      label := i.label
      source := i.source
      publisher := match i.publisher with
        | some p => if p.isEmpty then none else some p
        | none => none
      timestamp := i.creationDate }

/-- DocumentAddResult from storage/types.ts. -/
inductive SaveResult where
  | added (ref : Str)
  | duplicate (ref : Str)
  | error (message : Str)
deriving DecidableEq, Repr

/-- saveRawContent (config.ts lines 242-280).  The whole body runs in a
try/catch returning a typed error; ioError injects a filesystem failure
thrown by mkdir/writeFile on the write path, with its message. -/
def saveRawContent (now : JsDate) (st : Store) (i : EatInput)
    (ioError : Option Str) : Store × SaveResult :=
  let content := buildRawFileContent now i
  let ref := refOfInput now i
  if (storeLookup st ref).isSome then
    if !i.overwrite then (st, .duplicate ref)
    else
      match ioError with
      | some msg => (st, .error msg)
      | none => (storeWrite st ref content, .added ref)
  else
    match ioError with
    | some msg => (st, .error msg)
    | none => (storeWrite st ref content, .added ref)

/-- The state eat manipulates: the raw layer and the processing queue. -/
structure EatState where
  raw : Store
  queue : List Str
deriving DecidableEq, Repr

/-- GreptorEatResult from types.ts. -/
inductive EatResult where
  | success (message : Str) (ref : Str)
  | failure (message : Str)
deriving DecidableEq, Repr

/-- eat (lib/index.ts lines 105-136): reject a non-text format, then
delegate to saveRawContent; a duplicate or error result becomes a
failure, an added result enqueues the reference and succeeds. -/
def eat (now : JsDate) (s : EatState) (i : EatInput) (ioError : Option Str) :
    EatState × EatResult :=
  if i.format ≠ "text".toList then
    (s, .failure ("Unsupported format: ".toList ++ i.format))
  else
    match saveRawContent now s.raw i ioError with
    | (st, .duplicate _) =>
      ({ s with raw := st }, .failure "Document already exists.".toList)
    | (st, .error msg) => ({ s with raw := st }, .failure msg)
    | (st, .added ref) =>
      ({ raw := st, queue := s.queue ++ [ref] }, .success "Content added.".toList ref)

/-- A filesystem node as seen by the directory walk: a file, or a
directory with a list of named children in readdir order.  Entries that
are neither files nor directories are skipped by the walk and outside
the model. -/
inductive FsNode where
  | file : FsNode
  | dir : List (Str × FsNode) → FsNode

/-- A layer root: its named entries in readdir order. -/
abbrev FsLayer := List (Str × FsNode)

/-- Model of path.posix.join(dirRelative, name) as used by the walk:
the root's relative path is empty and entry names are nonempty and
slash-free. -/
def joinRel (rel name : Str) : Str :=
  if rel.isEmpty then name else rel ++ '/' :: name

/-- The markdown filter of the walk: name.toLowerCase().endsWith(".md"). -/
def mdName (name : Str) : Bool :=
  ".md".toList.isSuffixOf (name.map Char.toLower)

mutual
/-- One entry of the recursive walk in listLayerRefs (config.ts lines
213-235): files matching the markdown filter are collected with their
relative path, directories are recursed into. -/
def walkEntry (rel name : Str) : FsNode → List Str
  | .file => if mdName name then [joinRel rel name] else []
  | .dir children => walkEntries (joinRel rel name) children

/-- The walk over a directory's entries, in readdir order. -/
def walkEntries (rel : Str) : List (Str × FsNode) → List Str
  | [] => []
  | (n, node) :: rest => walkEntry rel n node ++ walkEntries rel rest
end

/-- The sort comparator: localeCompare is modelled as the code-point
lexicographic order on character lists. -/
def strLeb (a b : Str) : Bool := decide (a ≤ b)

/-- listLayerRefs (config.ts lines 207-240): walk the layer from the
root (relative path ""), then sort the collected references. -/
def listLayerRefs (layer : FsLayer) : List Str :=
  (walkEntries [] layer).mergeSort strLeb

/-- getUnprocessedContents (config.ts lines 319-324): the raw layer's
references filtered by absence from the processed layer's reference
set. -/
def getUnprocessedContents (raw processed : FsLayer) : List Str :=
  let rawRefs := listLayerRefs raw
  let processedRefs := listLayerRefs processed
  rawRefs.filter (fun r => !processedRefs.contains r)

/-- enqueueUnprocessedDocuments (processor, part_005 lines 326-337):
enqueue every unprocessed reference, in order, onto the given queue. -/
def enqueueUnprocessedDocuments (raw processed : FsLayer) (queue : List Str) :
    List Str :=
  (getUnprocessedContents raw processed).foldl (fun q r => q ++ [r]) queue

/-- PROCESSING_TEMPLATE from the processor (part_005 lines 64-120),
with the three placeholder tokens. -/
def processingTemplate : String := "# INSTRUCTIONS
Clean, chunk, and tag the raw content for **grep-based search** in the domain: {DOMAIN}.

## Core Principle
Optimize for **single-pass grep scanning**: a single grep hit should reveal what a chunk is about without reading other chunks.

## Objectives
- Remove noise and boilerplate: ads, sponsors, intros/outros, CTAs, repetitions, contact or social links, and sign-offs.
- Preserve **all meaning and factual detail exactly** (facts, names, dates, numbers, ranges, uncertainty, conditions, and meaningful URLs).
- Use **minimal wording** while keeping all information.
- Chunk the content into **semantic sections** (prefer fewer, richer chunks when possible; do not pad content to reach size targets).

## Output Format (Markdown only)

```markdown
## 01 Short descriptive title for chunk 1
field_1=value_1,value_4
field_2=value_2
field_3=value_3
<cleaned, condensed content>

## 02 Short descriptive title for chunk 2
field_1=value_1
field_4=value_4
field_5=value_5,value_6
<cleaned, condensed content>
```

## Tagging Rules
- Use ONLY fields defined in the SCHEMA (field names must exactly match schema).
- Do not invent new fields.
- Omit fields with no value.
- One tag field per line.
- DO NOT duplicate fields. For arrays, use comma-separated values.
- For enums, use only allowed enum values from the schema.
- Use ISO-8601 for dates (YYYY-MM-DD).
- Keep tag values grep-friendly: snake_case where appropriate, tickers/codes/symbols in UPPERCASE.
- Maintain tag order as per schema.

## Content Rules
- Output MUST be plain text or Markdown with simple formatting (headings, lists, bold/italic).
- Rewrite content to be token-efficient and grep-efficient without altering meaning.
- Split content into short paragraphs separated by blank lines.
- Each paragraph MUST be 1-3 sentences.
- Each sentence MUST be declarative and information-dense.
- Keep entities, tickers, and terms explicit; avoid pronouns.
- Normalize numbers (e.g., \"1,000,000.00\", \"24%\").
- Preserve uncertainty, ranges, and conditional statements exactly.
- Do not add interpretation, synthesis, or analysis.
- Preserve emotional tone and intent where relevant.
- Use scores and reaction metrics (likes, dislikes, upvotes, downvotes) to infer which posts or comments carry higher importance, agreement, disagreement, or emotional weight. Incorporate these signals when summarizing content and when determining how to break it into semantic chunks.

# TAG SCHEMA:
{TAG_SCHEMA}

# RAW CONTENT:
{CONTENT}"

/-- The template as a character list. -/
def processingTemplateChars : Str := processingTemplate.toList

/-- The {DOMAIN} placeholder. -/
def domainToken : Str := "{DOMAIN}".toList

/-- The {TAG_SCHEMA} placeholder. -/
def schemaToken : Str := "{TAG_SCHEMA}".toList

/-- The {CONTENT} placeholder. -/
def contentToken : Str := "{CONTENT}".toList

/-- Model of JS String.prototype.replaceAll with a nonempty pattern:
scan left to right, replace each occurrence, continue after the
replacement. -/
def replaceAllCharsAux (pat rep : Str) : Nat → Str → Str
  | 0, s => s
  | Nat.succ fuel, s =>
    match s with
    | [] => []
    | c :: rest =>
      if pat ≠ [] ∧ pat.isPrefixOf (c :: rest) then
        rep ++ replaceAllCharsAux pat rep fuel ((c :: rest).drop pat.length)
      else c :: replaceAllCharsAux pat rep fuel rest

/-- The scan consumes at least one character per step, so the input
length is enough fuel. -/
def replaceAllChars (pat rep : Str) (s : Str) : Str :=
  replaceAllCharsAux pat rep s.length s

/-- createProcessingPrompt (part_005 lines 122-135): a truthy custom
prompt only has its {CONTENT} placeholder substituted; otherwise the
default template has all three placeholders substituted. -/
def createProcessingPrompt (rawContent domain tagSchema : Str)
    (customProcessingPrompt : Option Str) : Str :=
  let dflt :=
    replaceAllChars contentToken rawContent
      (replaceAllChars schemaToken tagSchema
        (replaceAllChars domainToken domain processingTemplateChars))
  match customProcessingPrompt with
  | some p => if p.isEmpty then dflt else replaceAllChars contentToken rawContent p
  | none => dflt

/-- Join with a comma and space, as in YAML flow sequences. -/
def joinCommaSpace : List Str → Str
  | [] => []
  | [s] => s
  | s :: rest => s ++ ',' :: ' ' :: joinCommaSpace rest

/-- Model of the YAML document rendering in renderProcessedDocument:
like the header renderer, but with every all-scalar sequence in flow
style (the YAML.visit step). -/
def renderTagsFlow : Tags → List Str
  | [] => []
  | (k, .str s) :: rest => (k ++ ':' :: ' ' :: s) :: renderTagsFlow rest
  | (k, .num n) :: rest => (k ++ ':' :: ' ' :: intToChars n) :: renderTagsFlow rest
  | (k, .boolean b) :: rest => (k ++ ':' :: ' ' :: boolChars b) :: renderTagsFlow rest
  | (k, .arr items) :: rest =>
    (k ++ ':' :: ' ' :: '[' :: (joinCommaSpace items ++ [']'])) :: renderTagsFlow rest

/-- renderProcessedDocument (part_005 lines 45-62): the lines
["---", rendered tags trimmed at the end, "---", "", trimmed model
output] joined with newlines. -/
def renderProcessedDocument (tags : Tags) (chunkContent : Str) : Str :=
  let renderedTags := joinNl (renderTagsFlow tags) ++ ['\n']
  "---\n".toList ++ trimEndChars renderedTags ++ "\n---\n\n".toList ++
    trimChars chunkContent

/-- Split a character list at slashes, as ref.split("/"). -/
def splitSlash : Str → List Str
  | [] => [[]]
  | c :: t =>
    if c = '/' then [] :: splitSlash t
    else
      match splitSlash t with
      | [] => [[c]]
      | l :: ls => (c :: l) :: ls

/-- asNonEmptyString from the processor: a string value is trimmed and
kept when nonempty; any non-string value is discarded. -/
def asNonEmptyString : Option TagValue → Option Str
  | some (.str s) => let t := trimChars s; if t.isEmpty then none else some t
  | _ => none

/-- Lookup of a tag by key (JS property access on the parsed header). -/
def tagsLookup (tags : Tags) (k : Str) : Option TagValue :=
  (tags.find? (fun p => p.1 == k)).map (fun p => p.2)

/-- Model of the regex replace stripping one trailing ".md". -/
def stripMdSuffix (s : Str) : Str :=
  if ".md".toList.isSuffixOf s then s.take (s.length - 3) else s

/-- The source, optional publisher and label reported through hooks. -/
structure DocMeta where
  source : Str
  publisher : Option Str
  label : Str
deriving DecidableEq, Repr

/-- resolveDocumentMetadata (part_005 lines 171-188): prefer the parsed
tags' source, publisher and title when they are nonempty strings, fall
back to the positional decomposition of the reference path. -/
def resolveDocumentMetadata (ref : Str) (tags : Option Tags) : DocMeta :=
  let parts := splitSlash ref
  let filename := (parts.getLast?).getD []
  let labelFromPath := stripMdSuffix filename
  let sourceFromPath := (parts.head?).getD unknownChars
  let publisherFromPath : Option Str :=
    if parts.length > 3 then parts[1]? else none
  let publisher : Option Str :=
    match asNonEmptyString (tags.bind (fun t => tagsLookup t "publisher".toList)) with
    | some p => some p
    | none => publisherFromPath
  { source :=
      (asNonEmptyString (tags.bind (fun t => tagsLookup t "source".toList))).getD
        sourceFromPath
    label :=
      (asNonEmptyString (tags.bind (fun t => tagsLookup t "title".toList))).getD
        labelFromPath
    publisher :=
      match publisher with
      | some p => if p.isEmpty then none else some p
      | none => none }

/-- Modelled from the spec: the per-source running totals reported in
lifecycle events.  The implementation of storage.getDocumentCounts is
absent from the sources (only its interface declaration and call sites
appear); per spec section 6 the totals are observational data carried
by hook events. -/
abbrev SourceCounts := List (Str × Nat × Nat)

/-- The parsed raw record: tags and content body. -/
structure RawDoc where
  tags : Tags
  content : Str
deriving DecidableEq, Repr

/-- The result of the external model call: the generated text and the
token usage counters (usage fields defaulted to 0 when absent). -/
structure GenResult where
  text : Str
  inputTokens : Nat
  outputTokens : Nat
  totalTokens : Nat
deriving DecidableEq, Repr

/-- The hook events of the worker pool (GreptorHooks).  The failure
variant of onDocumentProcessingCompleted is docFailed; elapsed wall
time is not modelled. -/
inductive HookEvent where
  | processingStarted (concurrency : Nat) (counts : SourceCounts)
  | docStarted (meta : DocMeta) (counts : SourceCounts)
  | docCompleted (meta : DocMeta) (counts : SourceCounts)
      (inputTokens outputTokens totalTokens : Nat)
  | docFailed (meta : DocMeta) (error : Str)
  | processingCompleted (counts : SourceCounts)
deriving DecidableEq, Repr

/-- The environment of fallible external operations a worker iteration
performs.  Each field gives the outcome (normal or thrown) of one
operation; quantifying theorems over the environment covers every
combination of failures. -/
structure WorkerEnv where
  /-- Outcome of storage.readRawContent for a reference. -/
  readResult : Str → Except Str RawDoc
  /-- Outcome of the external model call for a prompt. -/
  genText : Str → Except Str GenResult
  /-- An error thrown by storage.saveProcessedContent for a reference,
  if any. -/
  writeOutcome : Str → Option Str
  /-- Whether a user hook handler throws on an event. -/
  hookResult : HookEvent → Except Str Unit
  /-- Modelled from the spec: storage.getDocumentCounts, whose
  implementation is absent from the sources; a total function of the
  processed layer producing running totals. -/
  docCounts : Store → SourceCounts

/-- The processor context (domain, serialized tag schema, per-source
custom prompts, pool concurrency). -/
structure Ctx where
  domain : Str
  tagSchema : Str
  customProcessingPrompts : List (Str × Str)
  concurrency : Nat

/-- Lookup of a per-source custom prompt. -/
def promptLookup (ps : List (Str × Str)) (k : Str) : Option Str :=
  (ps.find? (fun p => p.1 == k)).map (fun p => p.2)

/-- processDocument (part_005 lines 137-169): use the supplied raw
record or re-read it, resolve the custom prompt for the source, call
the model once, treat empty output as a failure, render, and persist to
the processed layer. -/
def processDocument (env : WorkerEnv) (ctx : Ctx) (ref : Str)
    (raw : Option RawDoc) (src : Option Str) (processed : Store) :
    Except Str (Store × GenResult) := do
  let rd ← match raw with
    | some r => Except.ok r
    | none => env.readResult ref
  let customPrompt := src.bind (fun s => promptLookup ctx.customProcessingPrompts s)
  let prompt := createProcessingPrompt rd.content ctx.domain ctx.tagSchema customPrompt
  let gr ← env.genText prompt
  if gr.text.isEmpty then
    Except.error "Failed to process content: empty LLM response".toList
  else
    let rendered := renderProcessedDocument rd.tags gr.text
    match env.writeOutcome ref with
    | some e => Except.error e
    | none => Except.ok (storeWrite processed ref rendered, gr)

/-- The mutable state a single worker loop iteration observes: the
shared queue, the processed layer, the active-worker counter, and the
log of hook events invoked so far (an observation artifact of the
embedding). -/
structure PoolState where
  queue : List Str
  processed : Store
  active : Nat
  events : List HookEvent
deriving DecidableEq, Repr

/-- safeHookCall (part_005 lines 216-222): the hook is invoked and any
exception it throws is swallowed; the event is recorded as invoked in
either case. -/
def safeHookCall (env : WorkerEnv) (s : PoolState) (e : HookEvent) : PoolState :=
  match env.hookResult e with
  | .ok _ => { s with events := s.events ++ [e] }
  | .error _ => { s with events := s.events ++ [e] }

/-- One iteration of workerLoop (part_005 lines 224-311) for a single
worker: dequeue (or idle on an empty queue), fire the run-started hook
when the pool was idle, read the raw record catching its failure,
resolve the reporting metadata, fire the document-started hook, run
processDocument inside the per-document try, fire the completion or
failure hook, decrement the active counter, and fire the run-completed
hook when the pool drained.  An uncaught exception would surface as an
error value. -/
def workerStep (env : WorkerEnv) (ctx : Ctx) (s : PoolState) :
    Except Str PoolState :=
  match s.queue with
  | [] => .ok s
  | docRef :: rest =>
    let s1 : PoolState := { s with queue := rest }
    let wasIdle := s1.active == 0
    let s2 : PoolState := { s1 with active := s1.active + 1 }
    let s3 :=
      if wasIdle then
        safeHookCall env s2
          (.processingStarted ctx.concurrency (env.docCounts s2.processed))
      else s2
    let readRes := env.readResult docRef
    let raw : Option RawDoc := readRes.toOption
    let readError : Option Str :=
      match readRes with
      | .ok _ => none
      | .error e => some e
    let meta := resolveDocumentMetadata docRef (raw.map (fun r => r.tags))
    let s4 := safeHookCall env s3 (.docStarted meta (env.docCounts s3.processed))
    let attempt : Except Str (Store × GenResult) :=
      match readError with
      | some e => .error e
      | none => processDocument env ctx docRef raw (some meta.source) s4.processed
    let s5 :=
      match attempt with
      | .ok (processed1, gr) =>
        let sA : PoolState := { s4 with processed := processed1 }
        safeHookCall env sA
          (.docCompleted meta (env.docCounts sA.processed)
            gr.inputTokens gr.outputTokens gr.totalTokens)
      | .error e => safeHookCall env s4 (.docFailed meta e)
    let s6 : PoolState := { s5 with active := s5.active - 1 }
    let s7 :=
      if s6.active == 0 && s6.queue.length == 0 then
        safeHookCall env s6 (.processingCompleted (env.docCounts s6.processed))
      else s6
    .ok s7

/-- The outcome of attempting one document, independent of the store:
what the per-document try block of the worker observes for a
reference. -/
def attemptOutcome (env : WorkerEnv) (ctx : Ctx) (ref : Str) :
    Except Str GenResult := do
  let rd ← env.readResult ref
  let meta := resolveDocumentMetadata ref (some rd.tags)
  let gr ← env.genText
    (createProcessingPrompt rd.content ctx.domain ctx.tagSchema
      (promptLookup ctx.customProcessingPrompts meta.source))
  if gr.text.isEmpty then
    Except.error "Failed to process content: empty LLM response".toList
  else
    match env.writeOutcome ref with
    | some e => Except.error e
    | none => Except.ok gr

/-- The rendered document the worker would persist for a reference when
its attempt succeeds. -/
def renderedFor (env : WorkerEnv) (ctx : Ctx) (ref : Str) : Option Str :=
  match env.readResult ref, attemptOutcome env ctx ref with
  | .ok rd, .ok gr => some (renderProcessedDocument rd.tags gr.text)
  | _, _ => none

/-- Iterate workerStep; the error branch is unreachable (the safety
theorem) and returns the state unchanged. -/
def runWorker (env : WorkerEnv) (ctx : Ctx) : Nat → PoolState → PoolState
  | 0, s => s
  | n + 1, s =>
    match workerStep env ctx s with
    | .ok s1 => runWorker env ctx n s1
    | .error _ => s

/-- Characters of a plain YAML scalar in the modelled fragment. -/
def plainValChar (c : Char) : Bool :=
  isLowerAlnum c || ('A' ≤ c && c ≤ 'Z') || c == '_' || c == ' ' || c == '.' ||
    c == '-' || c == '/' || c == ':' || c == ','

/-- Substring occurrence test. -/
def containsSub (pat s : Str) : Bool := (findFrom pat s 0).isSome

/-- Characters that could make a scalar look numeric to YAML. -/
def numericLikeChar (c : Char) : Bool :=
  c.isDigit || c == '.' || c == '+' || c == '-' || c == 'e' || c == 'E'

/-- A string value that round-trips through the modelled YAML fragment
as a plain scalar: nonempty, starting with an alphanumeric character,
built from plain characters, not ending in whitespace, with no colon
followed by a space, and not mistakable for a boolean, null, or number.
This predicate states the hypothesis side of the spec's carve-out for
values lost to YAML scalar coercion; it is deliberately conservative. -/
def plainVal (v : Str) : Bool :=
  match v with
  | [] => false
  | c :: _ =>
    (isLowerAlnum c || ('A' ≤ c && c ≤ 'Z'))
      && v.all plainValChar
      && !(Char.isWhitespace (v.getLastD ' '))
      && !containsSub (':' :: [' ']) v
      && v != "true".toList && v != "false".toList
      && v != "null".toList && v != "Null".toList && v != "NULL".toList
      && v != "True".toList && v != "TRUE".toList
      && v != "False".toList && v != "FALSE".toList
      && !(v.all numericLikeChar)

/-- A tag value that survives the modelled YAML fragment. -/
def goodVal : TagValue → Bool
  | .str s => plainVal s
  | .num _ => true
  | .boolean _ => true
  | .arr items => items.all plainVal

/-- Caller tags whose keys and values survive the modelled fragment. -/
def goodTags (t : Tags) : Bool :=
  t.all (fun p => safeKey p.1 && goodVal p.2)

/-- The round-trip hypotheses on an eat input: tags, label, source,
id, publisher and the rendered timestamp all survive the modelled YAML
fragment, and tag keys are distinct (as they are in a JS object). -/
def goodInput (now : JsDate) (i : EatInput) : Prop :=
  goodTags i.tags ∧ plainVal i.label ∧ plainVal i.source
    ∧ i.id.all plainVal ∧ i.publisher.all (fun p => p.isEmpty || plainVal p)
    ∧ plainVal (isoTimestampChars (i.creationDate.getD now))
    ∧ (i.tags.map Prod.fst).Nodup

instance (now : JsDate) (i : EatInput) : Decidable (goodInput now i) := by
  unfold goodInput
  infer_instance

/-- Lookup of a header object property. -/
def objLookup (h : List (Str × HVal)) (k : Str) : Option HVal :=
  (h.find? (fun p => p.1 == k)).map (fun p => p.2)

/-- A header property value surviving the modelled YAML fragment. -/
def goodHVal : HVal → Bool
  | .undef => true
  | .val v => goodVal v

/-- Header pairs whose keys and values survive the modelled fragment. -/
def goodHeaderPairs (h : List (Str × HVal)) : Bool :=
  h.all (fun p => safeKey p.1 && goodHVal p.2)

/-- No two adjacent hyphens anywhere in the string. -/
def noDoubleHyphen : Str → Bool
  | [] => true
  | [_] => true
  | a :: b :: t => !(a == '-' && b == '-') && noDoubleHyphen (b :: t)

/-- A serialized header line that survives the framing: nonempty, free
of newlines, not starting with a hyphen, not ending in whitespace, and
not blank. -/
def lineOk (l : Str) : Bool :=
  !l.isEmpty && l.all (fun c => !(c == '\n')) && !(l.headD ' ' == '-')
    && !(Char.isWhitespace (l.getLastD ' ')) && !(isBlankLine l)

/-- The raw file begins with an opening "---" line. -/
def hasHeaderOpen (file : Str) : Prop :=
  "---\n".toList.isPrefixOf file

/-- Some closing "\n---" delimiter occurs in the searched suffix. -/
def hasHeaderClose (file : Str) : Prop :=
  ∃ j, "\n---".toList.isPrefixOf ((file.drop 4).drop j)

/-! Basic lemmas about the modelled store. -/

theorem storeLookup_nil (k : Str) : storeLookup [] k = none := rfl

theorem storeLookup_singleton (k c : Str) :
    storeLookup [(k, c)] k = some c := by
  simp [storeLookup]

theorem storeWrite_nil (k v : Str) : storeWrite [] k v = [(k, v)] := by
  simp [storeWrite]

theorem storeLookup_cons (p : Str × Str) (rest : Store) (k : Str) :
    storeLookup (p :: rest) k =
      if p.1 == k then some p.2 else storeLookup rest k := by
  by_cases h : p.1 == k <;> simp [storeLookup, List.find?, h]

theorem storeLookup_map_update_other (st : Store) (k v k' : Str) (h : k' ≠ k) :
    storeLookup (st.map (fun p => if p.1 == k then (p.1, v) else p)) k'
      = storeLookup st k' := by
  induction st with
  | nil => rfl
  | cons p rest ih =>
    have hfst : (if p.1 == k then (p.1, v) else p).1 = p.1 := by
      cases hb : p.1 == k <;> simp
    simp only [List.map_cons, storeLookup_cons, hfst]
    cases hb : p.1 == k' with
    | false => exact ih
    | true =>
      have h1 : p.1 = k' := by simpa using hb
      have hpk : (p.1 == k) = false := by
        rw [beq_eq_false_iff_ne, h1]
        exact h
      rw [hpk]
      exact rfl

theorem storeLookup_map_update_self (st : Store) (k v : Str)
    (h : st.any (fun p => p.1 == k)) :
    storeLookup (st.map (fun p => if p.1 == k then (p.1, v) else p)) k
      = some v := by
  induction st with
  | nil => simp at h
  | cons p rest ih =>
    have hfst : (if p.1 == k then (p.1, v) else p).1 = p.1 := by
      cases hb : p.1 == k <;> simp
    simp only [List.map_cons, storeLookup_cons, hfst]
    cases hb : p.1 == k with
    | false =>
      simp only [List.any_cons, hb, Bool.false_or] at h
      exact ih h
    | true => rfl

theorem storeLookup_append_single_other (st : Store) (k v k' : Str) (h : k' ≠ k) :
    storeLookup (st ++ [(k, v)]) k' = storeLookup st k' := by
  induction st with
  | nil =>
    have h2 : (k == k') = false := by
      simp only [beq_eq_false_iff_ne, ne_eq]
      exact fun hc => h hc.symm
    simp [storeLookup_cons, h2, storeLookup_nil]
  | cons p rest ih =>
    simp only [List.cons_append, storeLookup_cons, ih]

theorem storeLookup_append_single_self (st : Store) (k v : Str)
    (h : ¬ st.any (fun p => p.1 == k)) :
    storeLookup (st ++ [(k, v)]) k = some v := by
  induction st with
  | nil => simp [storeLookup_cons]
  | cons p rest ih =>
    simp only [List.any_cons, Bool.or_eq_true] at h
    push_neg at h
    have h2 : (p.1 == k) = false := by
      cases hb : p.1 == k
      · rfl
      · exact absurd hb h.1
    simp only [List.cons_append, storeLookup_cons, h2, if_false]
    exact ih h.2

theorem storeLookup_storeWrite_self (st : Store) (k v : Str) :
    storeLookup (storeWrite st k v) k = some v := by
  unfold storeWrite
  by_cases h : st.any (fun p => p.1 == k)
  · simpa [h] using storeLookup_map_update_self st k v h
  · simpa [h] using storeLookup_append_single_self st k v h

theorem storeLookup_storeWrite_other (st : Store) (k v k' : Str) (h : k' ≠ k) :
    storeLookup (storeWrite st k v) k' = storeLookup st k' := by
  unfold storeWrite
  by_cases ha : st.any (fun p => p.1 == k)
  · simpa [ha] using storeLookup_map_update_other st k v k' h
  · simpa [ha] using storeLookup_append_single_other st k v k' h

/-! Lemmas about header objects and JS property assignment. -/

theorem objLookup_cons (p : Str × HVal) (rest : List (Str × HVal)) (k : Str) :
    objLookup (p :: rest) k =
      if p.1 == k then some p.2 else objLookup rest k := by
  by_cases h : p.1 == k <;> simp [objLookup, List.find?, h]

theorem objLookup_map_update_other (st : List (Str × HVal)) (k : Str) (v : HVal)
    (k' : Str) (h : k' ≠ k) :
    objLookup (st.map (fun p => if p.1 == k then (p.1, v) else p)) k'
      = objLookup st k' := by
  induction st with
  | nil => rfl
  | cons p rest ih =>
    have hfst : (if p.1 == k then (p.1, v) else p).1 = p.1 := by
      cases hb : p.1 == k <;> simp
    simp only [List.map_cons, objLookup_cons, hfst]
    cases hb : p.1 == k' with
    | false => exact ih
    | true =>
      have h1 : p.1 = k' := by simpa using hb
      have hpk : (p.1 == k) = false := by
        rw [beq_eq_false_iff_ne, h1]
        exact h
      rw [hpk]
      exact rfl

theorem objLookup_map_update_self (st : List (Str × HVal)) (k : Str) (v : HVal)
    (h : st.any (fun p => p.1 == k)) :
    objLookup (st.map (fun p => if p.1 == k then (p.1, v) else p)) k
      = some v := by
  induction st with
  | nil => simp at h
  | cons p rest ih =>
    have hfst : (if p.1 == k then (p.1, v) else p).1 = p.1 := by
      cases hb : p.1 == k <;> simp
    simp only [List.map_cons, objLookup_cons, hfst]
    cases hb : p.1 == k with
    | false =>
      simp only [List.any_cons, hb, Bool.false_or] at h
      exact ih h
    | true => rfl

theorem objLookup_append_single_other (st : List (Str × HVal)) (k : Str)
    (v : HVal) (k' : Str) (h : k' ≠ k) :
    objLookup (st ++ [(k, v)]) k' = objLookup st k' := by
  induction st with
  | nil =>
    have h2 : (k == k') = false := by
      simp only [beq_eq_false_iff_ne, ne_eq]
      exact fun hc => h hc.symm
    simp [objLookup_cons, h2, objLookup]
  | cons p rest ih =>
    simp only [List.cons_append, objLookup_cons, ih]

theorem objLookup_append_single_self (st : List (Str × HVal)) (k : Str)
    (v : HVal) (h : ¬ st.any (fun p => p.1 == k)) :
    objLookup (st ++ [(k, v)]) k = some v := by
  induction st with
  | nil => simp [objLookup_cons]
  | cons p rest ih =>
    simp only [List.any_cons, Bool.or_eq_true] at h
    push_neg at h
    have h2 : (p.1 == k) = false := by
      cases hb : p.1 == k
      · rfl
      · exact absurd hb h.1
    simp only [List.cons_append, objLookup_cons, h2, if_false]
    exact ih h.2

theorem objLookup_jsUpsert_self (st : List (Str × HVal)) (k : Str) (v : HVal) :
    objLookup (jsUpsert st k v) k = some v := by
  unfold jsUpsert
  by_cases h : st.any (fun p => p.1 == k)
  · simpa [h] using objLookup_map_update_self st k v h
  · simpa [h] using objLookup_append_single_self st k v h

theorem objLookup_jsUpsert_other (st : List (Str × HVal)) (k : Str) (v : HVal)
    (k' : Str) (h : k' ≠ k) :
    objLookup (jsUpsert st k v) k' = objLookup st k' := by
  unfold jsUpsert
  by_cases ha : st.any (fun p => p.1 == k)
  · simpa [ha] using objLookup_map_update_other st k v k' h
  · simpa [ha] using objLookup_append_single_other st k v k' h

theorem tagsLookup_cons (p : Str × TagValue) (rest : Tags) (k : Str) :
    tagsLookup (p :: rest) k =
      if p.1 == k then some p.2 else tagsLookup rest k := by
  by_cases h : p.1 == k <;> simp [tagsLookup, List.find?, h]

theorem tagsLookup_eq_none_of_not_mem (tags : Tags) (k : Str)
    (h : k ∉ tags.map Prod.fst) : tagsLookup tags k = none := by
  induction tags with
  | nil => rfl
  | cons p rest ih =>
    simp only [List.map_cons, List.mem_cons] at h
    push_neg at h
    have h2 : (p.1 == k) = false := by
      rw [beq_eq_false_iff_ne]
      exact fun hc => h.1 hc.symm
    rw [tagsLookup_cons, h2]
    exact ih h.2

/-- Spreading the caller's tags over the base object: with distinct tag
keys, a spread key's value is the tag's value and other keys keep their
prior value. -/
theorem objLookup_fold_tags (tags : Tags) (o : List (Str × HVal)) (k : Str)
    (hnd : (tags.map Prod.fst).Nodup) :
    objLookup (tags.foldl (fun acc p => jsUpsert acc p.1 (.val p.2)) o) k
      = match tagsLookup tags k with
        | some v => some (.val v)
        | none => objLookup o k := by
  induction tags generalizing o with
  | nil => rfl
  | cons p rest ih =>
    simp only [List.map_cons, List.nodup_cons] at hnd
    simp only [List.foldl_cons]
    rw [ih _ hnd.2, tagsLookup_cons]
    cases hb : p.1 == k with
    | true =>
      have h1 : p.1 = k := by simpa using hb
      have hnone : tagsLookup rest k = none := by
        apply tagsLookup_eq_none_of_not_mem
        rw [← h1]
        exact hnd.1
      rw [hnone, h1]
      simp [objLookup_jsUpsert_self]
    | false =>
      have hne : k ≠ p.1 := by
        have := (beq_eq_false_iff_ne (a := p.1) (b := k)).mp hb
        exact fun hc => this hc.symm
      cases hl : tagsLookup rest k
      · simp [objLookup_jsUpsert_other _ _ _ _ hne]
      · rfl

/-- The source key is always overwritten last (up to the publisher). -/
theorem buildYamlHeader_lookup_source (now : JsDate) (i : EatInput) :
    objLookup (buildYamlHeader now i) "source".toList
      = some (.val (.str i.source)) := by
  unfold buildYamlHeader
  cases hp : i.publisher with
  | none => exact objLookup_jsUpsert_self _ _ _
  | some p =>
    by_cases he : p.isEmpty
    · simp only [he, if_true]
      exact objLookup_jsUpsert_self _ _ _
    · simp only [he, Bool.false_eq_true, if_false]
      rw [objLookup_jsUpsert_other _ _ _ _ (by decide)]
      exact objLookup_jsUpsert_self _ _ _

/-- The publisher key is overwritten when the input has a truthy
publisher. -/
theorem buildYamlHeader_lookup_publisher (now : JsDate) (i : EatInput) (p : Str)
    (hp : i.publisher = some p) (hne : p.isEmpty = false) :
    objLookup (buildYamlHeader now i) "publisher".toList
      = some (.val (.str p)) := by
  unfold buildYamlHeader
  rw [hp]
  simp only [hne, if_false]
  exact objLookup_jsUpsert_self _ _ _

/-- Any caller tag whose key is not source or publisher survives into
the header with its own value (in particular the id, title and
created_at tags replace the standard fields). -/
theorem buildYamlHeader_lookup_tag (now : JsDate) (i : EatInput) (k : Str)
    (v : TagValue) (hnd : (i.tags.map Prod.fst).Nodup)
    (h : tagsLookup i.tags k = some v)
    (hs : k ≠ "source".toList) (hpk : k ≠ "publisher".toList) :
    objLookup (buildYamlHeader now i) k = some (.val v) := by
  unfold buildYamlHeader
  have base :
      objLookup
        (i.tags.foldl (fun acc p => jsUpsert acc p.1 (.val p.2))
          [("id".toList, match i.id with | some s => .val (.str s) | none => .undef),
           ("title".toList, .val (.str i.label)),
           ("created_at".toList,
             .val (.str (isoTimestampChars (i.creationDate.getD now))))]) k
        = some (.val v) := by
    rw [objLookup_fold_tags _ _ _ hnd, h]
  cases hp : i.publisher with
  | none =>
    rw [objLookup_jsUpsert_other _ _ _ _ hs]
    exact base
  | some p =>
    by_cases he : p.isEmpty
    · simp only [he, if_true]
      rw [objLookup_jsUpsert_other _ _ _ _ hs]
      exact base
    · simp only [he, Bool.false_eq_true, if_false]
      rw [objLookup_jsUpsert_other _ _ _ _ hpk,
        objLookup_jsUpsert_other _ _ _ _ hs]
      exact base

/-- Counterexample to claim C10 as stated: with no publisher on the
input, a caller tag named publisher is NOT overwritten by any document
field; the persisted header keeps the caller's value verbatim. -/
theorem claim10_counterexample :
    objLookup
      (buildYamlHeader ⟨2024, 1, 15, "Z".toList⟩
        { content := "c".toList, format := "text".toList, label := "L".toList,
          source := "demo".toList, publisher := none, id := none,
          creationDate := some ⟨2024, 1, 15, "Z".toList⟩,
          tags := [("publisher".toList, .str "x".toList)], overwrite := false })
      "publisher".toList
      = some (.val (.str "x".toList)) := by decide

/-- Claim C10 (amended): header-key precedence of buildRawFileContent.
A caller tag named source is always overwritten by the document's
source; a caller tag named publisher is overwritten exactly when the
input carries a truthy publisher (otherwise it survives); caller tags
named id, title or created_at replace the store's standard header
fields. -/
theorem claim10_header_key_precedence (now : JsDate) (i : EatInput)
    (hnd : (i.tags.map Prod.fst).Nodup) :
    objLookup (buildYamlHeader now i) "source".toList
      = some (.val (.str i.source)) ∧
    (∀ p, i.publisher = some p → p.isEmpty = false →
      objLookup (buildYamlHeader now i) "publisher".toList
        = some (.val (.str p))) ∧
    (i.publisher = none →
      ∀ v, tagsLookup i.tags "publisher".toList = some v →
        objLookup (buildYamlHeader now i) "publisher".toList = some (.val v)) ∧
    (∀ v, tagsLookup i.tags "id".toList = some v →
      objLookup (buildYamlHeader now i) "id".toList = some (.val v)) ∧
    (∀ v, tagsLookup i.tags "title".toList = some v →
      objLookup (buildYamlHeader now i) "title".toList = some (.val v)) ∧
    (∀ v, tagsLookup i.tags "created_at".toList = some v →
      objLookup (buildYamlHeader now i) "created_at".toList = some (.val v)) := by
  refine ⟨buildYamlHeader_lookup_source now i,
    fun p hp hne => buildYamlHeader_lookup_publisher now i p hp hne,
    fun hp v hv => ?_,
    fun v hv => buildYamlHeader_lookup_tag now i _ v hnd hv (by decide) (by decide),
    fun v hv => buildYamlHeader_lookup_tag now i _ v hnd hv (by decide) (by decide),
    fun v hv => buildYamlHeader_lookup_tag now i _ v hnd hv (by decide) (by decide)⟩
  unfold buildYamlHeader
  rw [hp]
  rw [objLookup_jsUpsert_other _ _ _ _ (by decide)]
  rw [objLookup_fold_tags _ _ _ hnd, hv]

/-- Witness for C10 at a concrete input with caller tags shadowing the
standard fields and a truthy publisher. -/
theorem claim10_header_key_precedence_witness :
    objLookup
      (buildYamlHeader ⟨2024, 1, 15, "Z".toList⟩
        { content := "c".toList, format := "text".toList, label := "L".toList,
          source := "demo".toList, publisher := some "pub".toList, id := none,
          creationDate := some ⟨2024, 1, 15, "Z".toList⟩,
          tags := [("source".toList, .str "shadow".toList),
                   ("title".toList, .str "mytitle".toList)],
          overwrite := false })
      "source".toList = some (.val (.str "demo".toList)) ∧
    objLookup
      (buildYamlHeader ⟨2024, 1, 15, "Z".toList⟩
        { content := "c".toList, format := "text".toList, label := "L".toList,
          source := "demo".toList, publisher := some "pub".toList, id := none,
          creationDate := some ⟨2024, 1, 15, "Z".toList⟩,
          tags := [("source".toList, .str "shadow".toList),
                   ("title".toList, .str "mytitle".toList)],
          overwrite := false })
      "title".toList = some (.val (.str "mytitle".toList)) := by
  have h := claim10_header_key_precedence ⟨2024, 1, 15, "Z".toList⟩
    { content := "c".toList, format := "text".toList, label := "L".toList,
      source := "demo".toList, publisher := some "pub".toList, id := none,
      creationDate := some ⟨2024, 1, 15, "Z".toList⟩,
      tags := [("source".toList, .str "shadow".toList),
               ("title".toList, .str "mytitle".toList)],
      overwrite := false } (by decide)
  exact ⟨h.1, h.2.2.2.2.1 _ (by decide)⟩

/-! The reference deriver: identity and totality. -/

theorem sanitize_of_core_ne_nil (name : Str) (n : Nat) (fb : Str)
    (h : sanitizeCore name n ≠ []) : sanitize name n fb = sanitizeCore name n := by
  unfold sanitize
  simp [List.isEmpty_iff, h]

theorem sanitize_of_core_nil (name : Str) (n : Nat) (fb : Str)
    (h : sanitizeCore name n = []) : sanitize name n fb = fb := by
  unfold sanitize
  simp [h]

/-- Counterexample to claim C1 as stated: two inputs agreeing on
source, publisher, label and creationDate but with different ids derive
different references, because the label sanitizes to the empty string
and the sanitized id is its fallback in the file name. -/
theorem claim1_counterexample :
    ({ content := "c1".toList, format := "text".toList, label := "!!!".toList,
       source := "demo".toList, publisher := none, id := some "a".toList,
       creationDate := some ⟨2024, 1, 15, "Z".toList⟩, tags := [],
       overwrite := false : EatInput }.source
      = { content := "c2".toList, format := "text".toList, label := "!!!".toList,
          source := "demo".toList, publisher := none, id := some "b".toList,
          creationDate := some ⟨2024, 1, 15, "Z".toList⟩, tags := [],
          overwrite := false : EatInput }.source) ∧
    ({ content := "c1".toList, format := "text".toList, label := "!!!".toList,
       source := "demo".toList, publisher := none, id := some "a".toList,
       creationDate := some ⟨2024, 1, 15, "Z".toList⟩, tags := [],
       overwrite := false : EatInput }.label
      = { content := "c2".toList, format := "text".toList, label := "!!!".toList,
          source := "demo".toList, publisher := none, id := some "b".toList,
          creationDate := some ⟨2024, 1, 15, "Z".toList⟩, tags := [],
          overwrite := false : EatInput }.label) ∧
    refOfInput ⟨2024, 1, 15, "Z".toList⟩
      { content := "c1".toList, format := "text".toList, label := "!!!".toList,
        source := "demo".toList, publisher := none, id := some "a".toList,
        creationDate := some ⟨2024, 1, 15, "Z".toList⟩, tags := [],
        overwrite := false }
      ≠ refOfInput ⟨2024, 1, 15, "Z".toList⟩
        { content := "c2".toList, format := "text".toList, label := "!!!".toList,
          source := "demo".toList, publisher := none, id := some "b".toList,
          creationDate := some ⟨2024, 1, 15, "Z".toList⟩, tags := [],
          overwrite := false } := by decide

/-- Claim C1 (amended): the derived reference is a pure function of the
identity tuple (source, publisher, label, UTC calendar date) whenever
the label does not sanitize to the empty string; the id, content, tags
and overwrite flag do not influence it.  (When the label sanitizes
empty, the sanitized id becomes the file-name segment, as the
counterexample shows.) -/
theorem claim1_ref_identity (now1 now2 : JsDate) (i1 i2 : EatInput)
    (hsrc : i1.source = i2.source) (hpub : i1.publisher = i2.publisher)
    (hlab : i1.label = i2.label)
    (hy : (i1.creationDate.getD now1).year = (i2.creationDate.getD now2).year)
    (hm : (i1.creationDate.getD now1).month = (i2.creationDate.getD now2).month)
    (hd : (i1.creationDate.getD now1).day = (i2.creationDate.getD now2).day)
    (hcore : sanitizeCore i1.label 50 ≠ []) :
    refOfInput now1 i1 = refOfInput now2 i2 := by
  have hcore2 : sanitizeCore i2.label 50 ≠ [] := by
    rw [← hlab]
    exact hcore
  have hiso : isoDateChars (i1.creationDate.getD now1)
      = isoDateChars (i2.creationDate.getD now2) := by
    unfold isoDateChars
    rw [hy, hm, hd]
  have hym : yearMonthChars (i1.creationDate.getD now1)
      = yearMonthChars (i2.creationDate.getD now2) := by
    unfold yearMonthChars
    rw [hy, hm]
  unfold refOfInput generateDocumentRef refSegments
  simp only [Option.getD_some]
  rw [hsrc, hpub, hlab, hiso, hym,
    sanitize_of_core_ne_nil _ _ _ hcore2, sanitize_of_core_ne_nil _ _ _ hcore2]

/-- Witness for C1 at two concrete inputs differing in id, content,
tags and overwrite but agreeing on the identity tuple. -/
theorem claim1_ref_identity_witness :
    refOfInput ⟨2024, 1, 15, "Z".toList⟩
      { content := "c1".toList, format := "text".toList, label := "Test Doc".toList,
        source := "demo".toList, publisher := some "pub".toList, id := some "a".toList,
        creationDate := some ⟨2024, 1, 15, "10:00:00.000Z".toList⟩, tags := [],
        overwrite := false }
      = refOfInput ⟨2024, 1, 16, "Z".toList⟩
        { content := "c2".toList, format := "text".toList, label := "Test Doc".toList,
          source := "demo".toList, publisher := some "pub".toList, id := some "b".toList,
          creationDate := some ⟨2024, 1, 15, "23:59:59.000Z".toList⟩,
          tags := [("k".toList, .str "v".toList)], overwrite := true } :=
  claim1_ref_identity ⟨2024, 1, 15, "Z".toList⟩ ⟨2024, 1, 16, "Z".toList⟩ _ _
    (by decide) (by decide) (by decide) (by decide) (by decide) (by decide)
    (by decide)

theorem sanitize_ne_nil (name : Str) (n : Nat) (fb : Str) (h : fb ≠ []) :
    sanitize name n fb ≠ [] := by
  unfold sanitize
  by_cases hc : (sanitizeCore name n).isEmpty
  · simpa [hc] using h
  · simpa [hc] using (by simpa [List.isEmpty_iff] using hc)

theorem collapseNonAlnum_nil (b : Bool) : collapseNonAlnum b [] = [] := rfl

theorem collapseNonAlnum_cons (b : Bool) (a : Char) (t : Str) :
    collapseNonAlnum b (a :: t) =
      if isLowerAlnum a then a :: collapseNonAlnum false t
      else if b then collapseNonAlnum true t
      else '-' :: collapseNonAlnum true t := rfl

theorem collapseHyphenRuns_nil (b : Bool) : collapseHyphenRuns b [] = [] := rfl

theorem collapseHyphenRuns_cons (b : Bool) (a : Char) (t : Str) :
    collapseHyphenRuns b (a :: t) =
      if a == '-' then
        (if b then collapseHyphenRuns true t else '-' :: collapseHyphenRuns true t)
      else a :: collapseHyphenRuns false t := rfl

theorem collapseNonAlnum_chars (s : Str) :
    ∀ b c, c ∈ collapseNonAlnum b s → isLowerAlnum c ∨ c = '-' := by
  induction s with
  | nil => intro b c h; rw [collapseNonAlnum_nil] at h; exact absurd h (List.not_mem_nil c)
  | cons a t ih =>
    intro b c h
    rw [collapseNonAlnum_cons] at h
    by_cases ha : isLowerAlnum a
    · simp only [ha, if_true, List.mem_cons] at h
      cases h with
      | inl he => exact Or.inl (he ▸ ha)
      | inr hm => exact ih false c hm
    · simp only [ha, Bool.false_eq_true, if_false] at h
      cases b with
      | true => exact ih true c h
      | false =>
        have h2 : c ∈ '-' :: collapseNonAlnum true t := h
        cases h2 with
        | head => exact Or.inr rfl
        | tail _ hm => exact ih true c hm

theorem collapseHyphenRuns_chars (s : Str) :
    ∀ b c, c ∈ collapseHyphenRuns b s → c ∈ s ∨ c = '-' := by
  induction s with
  | nil => intro b c h; rw [collapseHyphenRuns_nil] at h; exact absurd h (List.not_mem_nil c)
  | cons a t ih =>
    intro b c h
    rw [collapseHyphenRuns_cons] at h
    by_cases ha : a == '-'
    · simp only [ha, if_true] at h
      cases b with
      | true =>
        rcases ih true c h with hm | hh
        · exact Or.inl (List.mem_cons_of_mem a hm)
        · exact Or.inr hh
      | false =>
        have h2 : c ∈ '-' :: collapseHyphenRuns true t := h
        cases h2 with
        | head => exact Or.inr rfl
        | tail _ hm =>
          rcases ih true c hm with hm2 | hh
          · exact Or.inl (List.mem_cons_of_mem a hm2)
          · exact Or.inr hh
    · simp only [ha, Bool.false_eq_true, if_false, List.mem_cons] at h
      cases h with
      | inl he => exact Or.inl (he ▸ List.mem_cons_self a t)
      | inr hm =>
        rcases ih false c hm with hm2 | hh
        · exact Or.inl (List.mem_cons_of_mem a hm2)
        · exact Or.inr hh

theorem sanitizeCore_chars (name : Str) (n : Nat) :
    ∀ c ∈ sanitizeCore name n, isLowerAlnum c ∨ c = '-' := by
  intro c hc
  unfold sanitizeCore at hc
  have hc3 : c ∈ collapseHyphenRuns false
      (dropTrailingHyphens (dropLeadingHyphens
        (collapseNonAlnum false ((trimChars name).map Char.toLower)))) := by
    by_cases hl : (collapseHyphenRuns false
        (dropTrailingHyphens (dropLeadingHyphens
          (collapseNonAlnum false ((trimChars name).map Char.toLower))))).length > n
    · simp only [hl, if_true] at hc
      exact (List.take_sublist _ _).mem hc
    · simpa [hl] using hc
  rcases collapseHyphenRuns_chars _ false c hc3 with h2 | hh
  · have h2' : c ∈ dropLeadingHyphens
        (collapseNonAlnum false ((trimChars name).map Char.toLower)) := by
      unfold dropTrailingHyphens at h2
      rw [List.mem_reverse] at h2
      have := (List.dropWhile_sublist _).mem h2
      rwa [List.mem_reverse] at this
    have h1 : c ∈ collapseNonAlnum false ((trimChars name).map Char.toLower) :=
      (List.dropWhile_sublist _).mem h2'
    exact collapseNonAlnum_chars _ false c h1
  · exact Or.inr hh

theorem sanitizeCore_length (name : Str) (n : Nat) :
    (sanitizeCore name n).length ≤ n := by
  unfold sanitizeCore
  by_cases hl : (collapseHyphenRuns false
      (dropTrailingHyphens (dropLeadingHyphens
        (collapseNonAlnum false ((trimChars name).map Char.toLower))))).length > n
  · simp only [hl, if_true, List.length_take]
    omega
  · simp only [hl, if_false]
    omega

theorem head?_dropWhile_hyphen (s : Str) :
    (s.dropWhile (· == '-')).head? ≠ some '-' := by
  induction s with
  | nil => simp
  | cons a t ih =>
    by_cases ha : a == '-'
    · simpa [List.dropWhile_cons, ha] using ih
    · simp only [List.dropWhile_cons, ha, Bool.false_eq_true, if_false,
        List.head?_cons, ne_eq, Option.some.injEq]
      intro hc
      exact ha (by simp [hc])

theorem head?_dropTrailingHyphens (s : Str) (c : Char)
    (h : (dropTrailingHyphens s).head? = some c) : s.head? = some c := by
  have hs : dropTrailingHyphens s ++ (s.reverse.takeWhile (· == '-')).reverse
      = s := by
    unfold dropTrailingHyphens
    rw [← List.reverse_append, List.takeWhile_append_dropWhile, List.reverse_reverse]
  conv_lhs => rw [← hs]
  rw [List.head?_append]
  rw [h]
  rfl

theorem head?_collapseHyphenRuns (s : Str) :
    (collapseHyphenRuns false s).head? = s.head? := by
  cases s with
  | nil => rfl
  | cons a t =>
    rw [collapseHyphenRuns_cons]
    by_cases ha : a == '-'
    · have h1 : a = '-' := by simpa using ha
      simp [ha, h1]
    · simp [ha]

theorem head?_take_eq (l : Str) (n : Nat) (c : Char)
    (h : (l.take n).head? = some c) : l.head? = some c := by
  cases l with
  | nil => simp at h
  | cons a t =>
    cases n with
    | zero => simp at h
    | succ m => simpa using h

theorem sanitizeCore_head (name : Str) (n : Nat) :
    (sanitizeCore name n).head? ≠ some '-' := by
  intro h
  unfold sanitizeCore at h
  have h3 : (collapseHyphenRuns false
      (dropTrailingHyphens (dropLeadingHyphens
        (collapseNonAlnum false ((trimChars name).map Char.toLower))))).head?
      = some '-' := by
    by_cases hl : (collapseHyphenRuns false
        (dropTrailingHyphens (dropLeadingHyphens
          (collapseNonAlnum false ((trimChars name).map Char.toLower))))).length > n
    · simp only [hl, if_true] at h
      exact head?_take_eq _ _ _ h
    · simpa [hl] using h
  rw [head?_collapseHyphenRuns] at h3
  have h2 := head?_dropTrailingHyphens _ _ h3
  exact head?_dropWhile_hyphen _ h2

theorem noDoubleHyphen_take (l : Str) :
    ∀ n, noDoubleHyphen l = true → noDoubleHyphen (l.take n) = true := by
  induction l with
  | nil => intro n _; simp [noDoubleHyphen]
  | cons a t ih =>
    intro n h
    cases n with
    | zero => rfl
    | succ m =>
      simp only [List.take_succ_cons]
      cases t with
      | nil => simp [noDoubleHyphen]
      | cons b u =>
        cases m with
        | zero => rfl
        | succ m2 =>
          simp only [List.take_succ_cons]
          unfold noDoubleHyphen at h
          simp only [Bool.and_eq_true] at h
          have htail := ih (m2 + 1) h.2
          simp only [List.take_succ_cons] at htail
          unfold noDoubleHyphen
          simp only [Bool.and_eq_true]
          exact ⟨h.1, htail⟩

theorem collapseHyphenRuns_noDouble (s : Str) :
    ∀ b, noDoubleHyphen (collapseHyphenRuns b s) = true ∧
      ((collapseHyphenRuns true s).head? = some '-' → False) := by
  induction s with
  | nil => intro b; exact ⟨rfl, by simp [collapseHyphenRuns]⟩
  | cons a t ih =>
    intro b
    by_cases ha : a == '-'
    · constructor
      · cases b with
        | true =>
          rw [collapseHyphenRuns_cons]
          simp only [ha, if_true]
          exact (ih true).1
        | false =>
          rw [collapseHyphenRuns_cons]
          simp only [ha, if_true, Bool.false_eq_true, if_false]
          cases hc : collapseHyphenRuns true t with
          | nil => rfl
          | cons d u =>
            have hd : d ≠ '-' := by
              intro hdd
              apply (ih true).2
              rw [hc, hdd]
              rfl
            unfold noDoubleHyphen
            simp only [Bool.and_eq_true]
            constructor
            · simp [hd]
            · have := (ih true).1
              rwa [hc] at this
      · rw [collapseHyphenRuns_cons]
        simp only [ha, if_true]
        exact (ih true).2
    · constructor
      · have hstep : collapseHyphenRuns b (a :: t) = a :: collapseHyphenRuns false t := by
          rw [collapseHyphenRuns_cons]
          simp [ha]
        rw [hstep]
        cases hc : collapseHyphenRuns false t with
        | nil => rfl
        | cons d u =>
          unfold noDoubleHyphen
          simp only [Bool.and_eq_true]
          constructor
          · simp [ha]
          · have := (ih false).1
            rwa [hc] at this
      · rw [collapseHyphenRuns_cons]
        simp only [ha, Bool.false_eq_true, if_false, List.head?_cons]
        intro hc
        apply ha
        simp only [Option.some.injEq] at hc
        simp [hc]

theorem sanitizeCore_noDouble (name : Str) (n : Nat) :
    noDoubleHyphen (sanitizeCore name n) = true := by
  unfold sanitizeCore
  by_cases hl : (collapseHyphenRuns false
      (dropTrailingHyphens (dropLeadingHyphens
        (collapseNonAlnum false ((trimChars name).map Char.toLower))))).length > n
  · simp only [hl, if_true]
    exact noDoubleHyphen_take _ n (collapseHyphenRuns_noDouble _ false).1
  · simp only [hl, if_false]
    exact (collapseHyphenRuns_noDouble _ false).1

/-- Counterexample to claim C8 as stated: the length cap is applied
after hyphen stripping, so a capped segment can end in a hyphen, and
the label's fallback is the sanitized id rather than a fixed token.
Here the source "aaaaaaaaaaaaaaaaaaa bbb" (19 a's) yields the source
segment "aaaaaaaaaaaaaaaaaaa-" with a trailing hyphen. -/
theorem claim8_counterexample :
    (refSegments ⟨2024, 1, 15, "Z".toList⟩
        { id := some "a".toList, label := "L".toList,
          source := "aaaaaaaaaaaaaaaaaaa bbb".toList, publisher := none,
          timestamp := some ⟨2024, 1, 15, "Z".toList⟩ }).head?
      = some "aaaaaaaaaaaaaaaaaaa-".toList ∧
    ("aaaaaaaaaaaaaaaaaaa-".toList.getLastD ' ') = '-' := by decide

/-- Claim C8 (amended): totality of the deriver.  Every path segment of
every derived reference is nonempty; sanitize never returns the empty
string when its fallback is nonempty; the pipeline result is built only
from lowercase alphanumerics and hyphens, has no leading hyphen and no
hyphen run, and is capped at the requested length (a trailing hyphen
may survive the cap); when the pipeline empties the string the supplied
fallback is returned, and for the label segment that fallback is the
sanitized id rather than a fixed token. -/
theorem claim8_deriver_total (now : JsDate) (args : RefArgs) (name fb : Str)
    (n : Nat) :
    (∀ seg ∈ refSegments now args, seg ≠ []) ∧
    (fb ≠ [] → sanitize name n fb ≠ []) ∧
    (sanitizeCore name n = [] → sanitize name n fb = fb) ∧
    (∀ c ∈ sanitizeCore name n, isLowerAlnum c ∨ c = '-') ∧
    (sanitizeCore name n).length ≤ n ∧
    (sanitizeCore name n).head? ≠ some '-' ∧
    noDoubleHyphen (sanitizeCore name n) = true ∧
    (sanitizeCore args.label 50 = [] →
      (refSegments now args).getLast? =
        some (isoDateChars (args.timestamp.getD now) ++ '-' ::
          (sanitize (args.id.getD []) 50 unknownChars ++ ".md".toList))) := by
  refine ⟨?_, sanitize_ne_nil name n fb, sanitize_of_core_nil name n fb,
    sanitizeCore_chars name n, sanitizeCore_length name n,
    sanitizeCore_head name n, sanitizeCore_noDouble name n, ?_⟩
  · intro seg hseg
    unfold refSegments at hseg
    have hu : unknownChars ≠ [] := by decide
    simp only [List.mem_cons, List.mem_append, List.mem_singleton] at hseg
    rcases hseg with h1 | h2 | h3 | h4 | h5
    · exact h1 ▸ sanitize_ne_nil _ _ _ hu
    · rcases hp : args.publisher with _ | p
      · rw [hp] at h2
        simp at h2
      · rw [hp] at h2
        by_cases he : p.isEmpty
        · simp [he] at h2
        · simp only [he, Bool.false_eq_true, if_false, List.mem_singleton] at h2
          exact h2 ▸ sanitize_ne_nil _ _ _ hu
    · rw [h3]
      unfold yearMonthChars
      simp
    · rw [h4]
      simp
    · exact absurd h5 (List.not_mem_nil seg)
  · intro hc
    have hlast : ∀ (a : Str) (A : List Str) (ym fn : Str),
        (a :: (A ++ [ym, fn])).getLast? = some fn := by
      intro a A ym fn
      have he : a :: (A ++ [ym, fn]) = ((a :: A) ++ [ym]) ++ [fn] := by simp
      rw [he, List.getLast?_concat]
    unfold refSegments
    rw [hlast, sanitize_of_core_nil _ _ _ hc]

/-- Witness for C8: the nonemptiness and fallback clauses discharged at
a concrete input whose label sanitizes to the empty string. -/
theorem claim8_deriver_total_witness :
    sanitize "Hi!".toList 50 "unknown".toList ≠ [] ∧
    (refSegments ⟨2024, 1, 15, "Z".toList⟩
        { id := some "a".toList, label := "!!!".toList, source := "demo".toList,
          publisher := none, timestamp := some ⟨2024, 1, 15, "Z".toList⟩ }).getLast?
      = some (isoDateChars ⟨2024, 1, 15, "Z".toList⟩ ++ '-' ::
          (sanitize "a".toList 50 unknownChars ++ ".md".toList)) := by
  have h := claim8_deriver_total ⟨2024, 1, 15, "Z".toList⟩
    { id := some "a".toList, label := "!!!".toList, source := "demo".toList,
      publisher := none, timestamp := some ⟨2024, 1, 15, "Z".toList⟩ }
    "Hi!".toList "unknown".toList 50
  exact ⟨h.2.1 (by decide), h.2.2.2.2.2.2.2 (by decide)⟩

/-! Crash-recovery reconciliation. -/

theorem strLeb_trans (a b c : Str) (h1 : strLeb a b) (h2 : strLeb b c) :
    strLeb a c := by
  simp only [strLeb, decide_eq_true_eq] at h1 h2 ⊢
  exact le_trans h1 h2

theorem strLeb_total (a b : Str) : strLeb a b || strLeb b a := by
  simp only [strLeb, Bool.or_eq_true, decide_eq_true_eq]
  exact le_total a b

theorem foldl_enqueue (l q : List Str) :
    l.foldl (fun acc r => acc ++ [r]) q = q ++ l := by
  induction l generalizing q with
  | nil => simp
  | cons a t ih => simp [ih]

theorem mem_listLayerRefs (layer : FsLayer) (r : Str) :
    r ∈ listLayerRefs layer ↔ r ∈ walkEntries [] layer := by
  unfold listLayerRefs
  exact List.mem_mergeSort

/-- Claim C2: getUnprocessedContents is exactly the sorted set
difference of the two layers, and startup reconciliation enqueues
exactly these references, so a reference with a processed file is never
re-enqueued. -/
theorem claim2_reconciliation (raw processed : FsLayer) (q : List Str) :
    (∀ r, r ∈ getUnprocessedContents raw processed ↔
      (r ∈ listLayerRefs raw ∧ r ∉ listLayerRefs processed)) ∧
    List.Pairwise (fun a b => a ≤ b) (getUnprocessedContents raw processed) ∧
    enqueueUnprocessedDocuments raw processed q
      = q ++ getUnprocessedContents raw processed ∧
    enqueueUnprocessedDocuments raw processed []
      = getUnprocessedContents raw processed ∧
    (∀ r, r ∈ listLayerRefs processed →
      r ∉ enqueueUnprocessedDocuments raw processed []) := by
  have hmem : ∀ r, r ∈ getUnprocessedContents raw processed ↔
      (r ∈ listLayerRefs raw ∧ r ∉ listLayerRefs processed) := by
    intro r
    unfold getUnprocessedContents
    rw [List.mem_filter]
    constructor
    · intro ⟨h1, h2⟩
      refine ⟨h1, fun hc => ?_⟩
      rw [Bool.not_eq_true', ← Bool.not_eq_true] at h2
      exact h2 (by simpa [List.contains, List.elem_iff] using hc)
    · intro ⟨h1, h2⟩
      refine ⟨h1, ?_⟩
      rw [Bool.not_eq_true', ← Bool.not_eq_true]
      intro hc
      exact h2 (by simpa [List.contains, List.elem_iff] using hc)
  have hsorted : List.Pairwise (fun a b => a ≤ b)
      (getUnprocessedContents raw processed) := by
    unfold getUnprocessedContents listLayerRefs
    have hp := @List.sorted_mergeSort _ strLeb
      (fun a b c => strLeb_trans a b c) strLeb_total (walkEntries [] raw)
    have hp2 : List.Pairwise (fun a b => a ≤ b)
        ((walkEntries [] raw).mergeSort strLeb) := by
      refine hp.imp ?_
      intro a b hab
      simpa [strLeb] using hab
    exact List.Pairwise.sublist (List.filter_sublist _) hp2
  have henq : enqueueUnprocessedDocuments raw processed q
      = q ++ getUnprocessedContents raw processed := by
    unfold enqueueUnprocessedDocuments
    exact foldl_enqueue _ q
  have henq0 : enqueueUnprocessedDocuments raw processed []
      = getUnprocessedContents raw processed := by
    unfold enqueueUnprocessedDocuments
    simpa using foldl_enqueue _ []
  refine ⟨hmem, hsorted, henq, henq0, ?_⟩
  intro r hr hcontra
  rw [henq0] at hcontra
  exact ((hmem r).mp hcontra).2 hr

/-- Witness for C2: a processed reference is not re-enqueued for a
concrete pair of layers. -/
theorem claim2_reconciliation_witness :
    "a/f1.md".toList ∉
      enqueueUnprocessedDocuments
        [("a".toList, FsNode.dir
          [("f1.md".toList, FsNode.file), ("f2.md".toList, FsNode.file)])]
        [("a".toList, FsNode.dir [("f1.md".toList, FsNode.file)])] [] := by
  exact (claim2_reconciliation
    [("a".toList, FsNode.dir
      [("f1.md".toList, FsNode.file), ("f2.md".toList, FsNode.file)])]
    [("a".toList, FsNode.dir [("f1.md".toList, FsNode.file)])] []).2.2.2.2
    "a/f1.md".toList
    ((mem_listLayerRefs _ _).mpr (by decide))

/-! The worker loop: failure isolation. -/

theorem safeHookCall_eq (env : WorkerEnv) (s : PoolState) (e : HookEvent) :
    safeHookCall env s e = { s with events := s.events ++ [e] } := by
  unfold safeHookCall
  cases env.hookResult e <;> rfl

theorem workerStep_nil (env : WorkerEnv) (ctx : Ctx) (s : PoolState)
    (h : s.queue = []) : workerStep env ctx s = .ok s := by
  unfold workerStep
  rw [h]

theorem exbind_ok {α β : Type} (a : α) (f : α → Except Str β) :
    (Except.ok a >>= f) = f a := rfl

theorem exbind_error {α β : Type} (e : Str) (f : α → Except Str β) :
    ((Except.error e : Except Str α) >>= f) = Except.error e := rfl

theorem opbind_some {α β : Type} (a : α) (f : α → Option β) :
    ((some a).bind f) = f a := rfl

theorem processDocument_spec (env : WorkerEnv) (ctx : Ctx) (ref : Str)
    (rd : RawDoc) (st : Store) (hread : env.readResult ref = .ok rd) :
    processDocument env ctx ref (some rd)
        (some (resolveDocumentMetadata ref (some rd.tags)).source) st
      = match attemptOutcome env ctx ref with
        | .ok gr =>
          .ok (storeWrite st ref (renderProcessedDocument rd.tags gr.text), gr)
        | .error e => .error e := by
  unfold processDocument attemptOutcome
  rw [hread]
  simp only [opbind_some, exbind_ok]
  cases hgen : env.genText
      (createProcessingPrompt rd.content ctx.domain ctx.tagSchema
        (promptLookup ctx.customProcessingPrompts
          (resolveDocumentMetadata ref (some rd.tags)).source)) with
  | error e => rfl
  | ok gr =>
    simp only [exbind_ok]
    by_cases he : gr.text.isEmpty
    · simp only [he, if_true]
    · simp only [he, Bool.false_eq_true, if_false]
      cases env.writeOutcome ref <;> rfl

theorem workerStep_cons (env : WorkerEnv) (ctx : Ctx) (s : PoolState)
    (ref : Str) (rest : List Str) (h : s.queue = ref :: rest) :
    ∃ s', workerStep env ctx s = .ok s' ∧
      s'.queue = rest ∧
      s'.processed = (match renderedFor env ctx ref with
        | some content => storeWrite s.processed ref content
        | none => s.processed) ∧
      (∀ x ∈ s.events, x ∈ s'.events) ∧
      (∀ e, attemptOutcome env ctx ref = .error e →
        HookEvent.docFailed
          (resolveDocumentMetadata ref
            ((env.readResult ref).toOption.map (fun r => r.tags))) e
          ∈ s'.events) := by
  unfold workerStep
  rw [h]
  simp only [safeHookCall_eq]
  cases hread : env.readResult ref with
  | error e0 =>
    have hatt : attemptOutcome env ctx ref = .error e0 := by
      unfold attemptOutcome
      rw [hread]
      rfl
    have hrf : renderedFor env ctx ref = none := by
      unfold renderedFor
      rw [hread]
    refine ⟨_, rfl, ?_⟩
    simp only [hrf, hatt, hread]
    refine ⟨?_, ?_, ?_, ?_⟩
    · by_cases hidle : s.active == 0 <;> by_cases hrest : rest = [] <;>
        simp [hidle, hrest]
    · by_cases hidle : s.active == 0 <;> by_cases hrest : rest = [] <;>
        simp [hidle, hrest, Except.toOption]
    · intro x hx
      by_cases hidle : s.active == 0 <;> by_cases hrest : rest = [] <;>
        simp [hidle, hrest, hx]
    · intro e he
      injection he with he2
      subst he2
      by_cases hidle : s.active == 0 <;> by_cases hrest : rest = [] <;>
        simp [hidle, hrest, Except.toOption]
  | ok rd =>
    simp only [Except.toOption, Option.map_some']
    rw [processDocument_spec env ctx ref rd _ hread]
    cases hatt : attemptOutcome env ctx ref with
    | ok gr =>
      have hrf : renderedFor env ctx ref
          = some (renderProcessedDocument rd.tags gr.text) := by
        unfold renderedFor
        rw [hread, hatt]
      refine ⟨_, rfl, ?_⟩
      simp only [hrf]
      refine ⟨?_, ?_, ?_, ?_⟩
      · by_cases hidle : s.active == 0 <;> by_cases hrest : rest = [] <;>
          simp [hidle, hrest]
      · by_cases hidle : s.active == 0 <;> by_cases hrest : rest = [] <;>
          simp [hidle, hrest]
      · intro x hx
        by_cases hidle : s.active == 0 <;> by_cases hrest : rest = [] <;>
          simp [hidle, hrest, hx]
      · intro e he
        exact absurd he (by simp)
    | error e0 =>
      have hrf : renderedFor env ctx ref = none := by
        unfold renderedFor
        rw [hread, hatt]
      refine ⟨_, rfl, ?_⟩
      simp only [hrf, hread]
      refine ⟨?_, ?_, ?_, ?_⟩
      · by_cases hidle : s.active == 0 <;> by_cases hrest : rest = [] <;>
          simp [hidle, hrest]
      · by_cases hidle : s.active == 0 <;> by_cases hrest : rest = [] <;>
          simp [hidle, hrest]
      · intro x hx
        by_cases hidle : s.active == 0 <;> by_cases hrest : rest = [] <;>
          simp [hidle, hrest, hx]
      · intro e he
        injection he with he2
        subst he2
        by_cases hidle : s.active == 0 <;> by_cases hrest : rest = [] <;>
          simp [hidle, hrest, Except.toOption]

/-- Claim C5: no exception terminates a worker loop.  One worker
iteration always completes normally, for every combination of outcomes
of the raw read, the model call, the processed write and every hook
handler (hook exceptions are swallowed); and when the per-document
attempt fails, the failure hook fires carrying the document's resolved
source/publisher/label. -/
theorem claim5_worker_never_throws (env : WorkerEnv) (ctx : Ctx)
    (s : PoolState) :
    (∃ s', workerStep env ctx s = .ok s') ∧
    (∀ ref rest e, s.queue = ref :: rest →
      attemptOutcome env ctx ref = .error e →
      ∃ s', workerStep env ctx s = .ok s' ∧
        HookEvent.docFailed
          (resolveDocumentMetadata ref
            ((env.readResult ref).toOption.map (fun r => r.tags))) e
          ∈ s'.events) := by
  constructor
  · cases hq : s.queue with
    | nil => exact ⟨s, workerStep_nil env ctx s hq⟩
    | cons ref rest =>
      obtain ⟨s', hs', _⟩ := workerStep_cons env ctx s ref rest hq
      exact ⟨s', hs'⟩
  · intro ref rest e hq hatt
    obtain ⟨s', hs', _, _, _, hfail⟩ := workerStep_cons env ctx s ref rest hq
    exact ⟨s', hs', hfail e hatt⟩

/-- Witness for C5: a concrete iteration in which the raw read throws
and every hook handler throws still completes, logging the failure
event with the path-derived metadata. -/
theorem claim5_worker_never_throws_witness :
    ∃ s', workerStep
        { readResult := fun _ => .error "boom".toList,
          genText := fun _ => .ok ⟨"x".toList, 0, 0, 0⟩,
          writeOutcome := fun _ => none,
          hookResult := fun _ => .error "hook crashed".toList,
          docCounts := fun _ => [] }
        ⟨"d".toList, "s".toList, [], 1⟩
        ⟨["demo/2024-01/2024-01-15-doc.md".toList], [], 0, []⟩ = .ok s' ∧
      HookEvent.docFailed
        (resolveDocumentMetadata "demo/2024-01/2024-01-15-doc.md".toList none)
        "boom".toList ∈ s'.events := by
  have h := (claim5_worker_never_throws
    { readResult := fun _ => .error "boom".toList,
      genText := fun _ => .ok ⟨"x".toList, 0, 0, 0⟩,
      writeOutcome := fun _ => none,
      hookResult := fun _ => .error "hook crashed".toList,
      docCounts := fun _ => [] }
    ⟨"d".toList, "s".toList, [], 1⟩
    ⟨["demo/2024-01/2024-01-15-doc.md".toList], [], 0, []⟩).2
    "demo/2024-01/2024-01-15-doc.md".toList [] "boom".toList rfl rfl
  simpa using h

theorem attemptOutcome_of_read_error (env : WorkerEnv) (ctx : Ctx) (ref : Str)
    (e : Str) (h : env.readResult ref = .error e) :
    attemptOutcome env ctx ref = .error e := by
  unfold attemptOutcome
  rw [h]
  rfl

theorem renderedFor_of_attempt_ok (env : WorkerEnv) (ctx : Ctx) (ref : Str)
    (gr : GenResult) (h : attemptOutcome env ctx ref = .ok gr) :
    ∃ rd, env.readResult ref = .ok rd ∧
      renderedFor env ctx ref = some (renderProcessedDocument rd.tags gr.text) := by
  cases hr : env.readResult ref with
  | error e =>
    rw [attemptOutcome_of_read_error env ctx ref e hr] at h
    exact absurd h (by simp)
  | ok rd =>
    refine ⟨rd, rfl, ?_⟩
    unfold renderedFor
    rw [hr, h]

theorem renderedFor_of_attempt_error (env : WorkerEnv) (ctx : Ctx) (ref : Str)
    (e : Str) (h : attemptOutcome env ctx ref = .error e) :
    renderedFor env ctx ref = none := by
  cases hr : env.readResult ref with
  | error e2 =>
    unfold renderedFor
    rw [hr]
  | ok rd =>
    unfold renderedFor
    rw [hr, h]

theorem attempt_isOk_iff (env : WorkerEnv) (ctx : Ctx) (ref : Str) :
    (attemptOutcome env ctx ref).isOk
      ↔ ∃ gr, attemptOutcome env ctx ref = .ok gr := by
  cases h : attemptOutcome env ctx ref <;> simp [Except.isOk, Except.toBool]

theorem attempt_isOk_of_renderedFor_some (env : WorkerEnv) (ctx : Ctx)
    (ref : Str) (c : Str) (h : renderedFor env ctx ref = some c) :
    (attemptOutcome env ctx ref).isOk := by
  rw [attempt_isOk_iff]
  unfold renderedFor at h
  cases hr : env.readResult ref with
  | error e => rw [hr] at h; exact absurd h (by simp)
  | ok rd =>
    rw [hr] at h
    cases hatt : attemptOutcome env ctx ref with
    | ok gr => exact ⟨gr, rfl⟩
    | error e => rw [hatt] at h; exact absurd h (by simp)

theorem storeLookup_storeWrite_isSome (st : Store) (r c k : Str)
    (h : (storeLookup st k).isSome) :
    (storeLookup (storeWrite st r c) k).isSome := by
  by_cases hkr : k = r
  · subst hkr
    simp [storeLookup_storeWrite_self]
  · rw [storeLookup_storeWrite_other _ _ _ _ hkr]
    exact h

/-- Draining a queue of n references in n iterations: the queue
empties, existing processed entries survive, every reference whose
attempt succeeds gains a processed entry, no reference whose attempt
fails is ever written, prior events survive, and every failed
reference's failure event is logged. -/
theorem runWorker_spec (env : WorkerEnv) (ctx : Ctx) :
    ∀ (q : List Str) (s : PoolState), s.queue = q →
      (runWorker env ctx q.length s).queue = [] ∧
      (∀ k, (storeLookup s.processed k).isSome →
        (storeLookup (runWorker env ctx q.length s).processed k).isSome) ∧
      (∀ r ∈ q, (attemptOutcome env ctx r).isOk →
        (storeLookup (runWorker env ctx q.length s).processed r).isSome) ∧
      (∀ k, ¬ (attemptOutcome env ctx k).isOk →
        storeLookup (runWorker env ctx q.length s).processed k
          = storeLookup s.processed k) ∧
      (∀ x ∈ s.events, x ∈ (runWorker env ctx q.length s).events) ∧
      (∀ r ∈ q, ∀ e, attemptOutcome env ctx r = .error e →
        HookEvent.docFailed (resolveDocumentMetadata r
          ((env.readResult r).toOption.map (fun d => d.tags))) e
          ∈ (runWorker env ctx q.length s).events) := by
  intro q
  induction q with
  | nil =>
    intro s hq
    exact ⟨hq, fun k h => h, fun r hr => absurd hr (List.not_mem_nil r),
      fun k _ => rfl, fun x hx => hx,
      fun r hr => absurd hr (List.not_mem_nil r)⟩
  | cons r q' ih =>
    intro s hq
    obtain ⟨s1, hstep, hq1, hproc, hev, hfail⟩ := workerStep_cons env ctx s r q' hq
    have hrun : runWorker env ctx (r :: q').length s
        = runWorker env ctx q'.length s1 := by
      simp only [List.length_cons, runWorker, hstep]
    obtain ⟨ihq, ihpres, ihok, ihun, ihev, ihfail⟩ := ih s1 hq1
    rw [hrun]
    refine ⟨ihq, ?_, ?_, ?_, ?_, ?_⟩
    · intro k hk
      apply ihpres
      rw [hproc]
      cases hrf : renderedFor env ctx r with
      | none => exact hk
      | some c => exact storeLookup_storeWrite_isSome _ _ _ _ hk
    · intro rr hrr hok
      rcases List.mem_cons.mp hrr with hrr | hrr
      · subst hrr
        obtain ⟨gr, hgr⟩ := (attempt_isOk_iff env ctx rr).mp hok
        obtain ⟨rd, _, hrf⟩ := renderedFor_of_attempt_ok env ctx rr gr hgr
        apply ihpres
        rw [hproc, hrf]
        simp [storeLookup_storeWrite_self]
      · exact ihok rr hrr hok
    · intro k hnok
      rw [ihun k hnok, hproc]
      cases hrf : renderedFor env ctx r with
      | none => rfl
      | some c =>
        have hratt := attempt_isOk_of_renderedFor_some env ctx r c hrf
        have hkr : k ≠ r := fun hc => hnok (hc ▸ hratt)
        exact storeLookup_storeWrite_other _ _ _ _ hkr
    · intro x hx
      exact ihev _ (hev x hx)
    · intro rr hrr e he
      rcases List.mem_cons.mp hrr with hrr | hrr
      · subst hrr
        exact ihev _ (hfail e he)
      · exact ihfail rr hrr e he

/-- Claim C9: crash isolation with no partial output.  With a single
worker draining a queue pre ++ x :: post, if every reference in pre and
post attempts successfully while x's model call raises or returns empty
text (or its write fails), then after the run every reference of pre
and post has a processed file, x has none (saveProcessedContent is
never reached for it), and a failure event naming x's resolved metadata
was fired. -/
theorem claim9_crash_isolation (env : WorkerEnv) (ctx : Ctx)
    (pre post : List Str) (x : Str) (st0 : Store) (a0 : Nat)
    (ev0 : List HookEvent) (e : Str)
    (hgood : ∀ r ∈ pre ++ post, (attemptOutcome env ctx r).isOk)
    (hbad : attemptOutcome env ctx x = .error e)
    (hx0 : storeLookup st0 x = none) :
    (∀ r ∈ pre ++ post,
      (storeLookup (runWorker env ctx (pre ++ x :: post).length
        ⟨pre ++ x :: post, st0, a0, ev0⟩).processed r).isSome) ∧
    storeLookup (runWorker env ctx (pre ++ x :: post).length
      ⟨pre ++ x :: post, st0, a0, ev0⟩).processed x = none ∧
    HookEvent.docFailed (resolveDocumentMetadata x
        ((env.readResult x).toOption.map (fun d => d.tags))) e
      ∈ (runWorker env ctx (pre ++ x :: post).length
          ⟨pre ++ x :: post, st0, a0, ev0⟩).events := by
  obtain ⟨_, _, hok, hun, _, hfail⟩ :=
    runWorker_spec env ctx (pre ++ x :: post) ⟨pre ++ x :: post, st0, a0, ev0⟩ rfl
  refine ⟨?_, ?_, ?_⟩
  · intro r hr
    apply hok r _ (hgood r hr)
    rcases List.mem_append.mp hr with h1 | h1
    · exact List.mem_append_left _ h1
    · exact List.mem_append_right _ (List.mem_cons_of_mem x h1)
  · have hnok : ¬ (attemptOutcome env ctx x).isOk := by
      rw [hbad]
      simp [Except.isOk, Except.toBool]
    rw [hun x hnok]
    exact hx0
  · exact hfail x (List.mem_append_right _ (List.mem_cons_self x post)) e hbad

/-- Witness for C9: a concrete three-document queue in which the middle
document's model call returns empty text; the two neighbours reach the
processed layer, the middle one does not, and its failure event fires. -/
theorem claim9_crash_isolation_witness :
    (∀ r ∈ (["s/2024-01/a.md".toList] ++ ["s/2024-01/b.md".toList]),
      (storeLookup (runWorker
        { readResult := fun r =>
            if r = "s/2024-01/x.md".toList then .ok ⟨[], "cx".toList⟩
            else .ok ⟨[], "c".toList⟩,
          genText := fun p =>
            if p = "PROMPT cx".toList then .ok ⟨[], 0, 0, 0⟩
            else .ok ⟨"out".toList, 0, 0, 0⟩,
          writeOutcome := fun _ => none,
          hookResult := fun _ => .ok (),
          docCounts := fun _ => [] }
        ⟨"d".toList, "ts".toList, [("s".toList, "PROMPT {CONTENT}".toList)], 1⟩
        (["s/2024-01/a.md".toList] ++ "s/2024-01/x.md".toList :: ["s/2024-01/b.md".toList]).length
        ⟨["s/2024-01/a.md".toList] ++ "s/2024-01/x.md".toList :: ["s/2024-01/b.md".toList],
          [], 0, []⟩).processed r).isSome) ∧
    storeLookup (runWorker
        { readResult := fun r =>
            if r = "s/2024-01/x.md".toList then .ok ⟨[], "cx".toList⟩
            else .ok ⟨[], "c".toList⟩,
          genText := fun p =>
            if p = "PROMPT cx".toList then .ok ⟨[], 0, 0, 0⟩
            else .ok ⟨"out".toList, 0, 0, 0⟩,
          writeOutcome := fun _ => none,
          hookResult := fun _ => .ok (),
          docCounts := fun _ => [] }
        ⟨"d".toList, "ts".toList, [("s".toList, "PROMPT {CONTENT}".toList)], 1⟩
        (["s/2024-01/a.md".toList] ++ "s/2024-01/x.md".toList :: ["s/2024-01/b.md".toList]).length
        ⟨["s/2024-01/a.md".toList] ++ "s/2024-01/x.md".toList :: ["s/2024-01/b.md".toList],
          [], 0, []⟩).processed "s/2024-01/x.md".toList = none ∧
    HookEvent.docFailed (resolveDocumentMetadata "s/2024-01/x.md".toList
        (((
          { readResult := fun r =>
              if r = "s/2024-01/x.md".toList then .ok ⟨[], "cx".toList⟩
              else .ok ⟨[], "c".toList⟩,
            genText := fun p =>
              if p = "PROMPT cx".toList then .ok ⟨[], 0, 0, 0⟩
              else .ok ⟨"out".toList, 0, 0, 0⟩,
            writeOutcome := fun _ => none,
            hookResult := fun _ => .ok (),
            docCounts := fun _ => [] } : WorkerEnv).readResult
          "s/2024-01/x.md".toList).toOption.map (fun d => d.tags)))
        "Failed to process content: empty LLM response".toList
      ∈ (runWorker
        { readResult := fun r =>
            if r = "s/2024-01/x.md".toList then .ok ⟨[], "cx".toList⟩
            else .ok ⟨[], "c".toList⟩,
          genText := fun p =>
            if p = "PROMPT cx".toList then .ok ⟨[], 0, 0, 0⟩
            else .ok ⟨"out".toList, 0, 0, 0⟩,
          writeOutcome := fun _ => none,
          hookResult := fun _ => .ok (),
          docCounts := fun _ => [] }
        ⟨"d".toList, "ts".toList, [("s".toList, "PROMPT {CONTENT}".toList)], 1⟩
        (["s/2024-01/a.md".toList] ++ "s/2024-01/x.md".toList :: ["s/2024-01/b.md".toList]).length
        ⟨["s/2024-01/a.md".toList] ++ "s/2024-01/x.md".toList :: ["s/2024-01/b.md".toList],
          [], 0, []⟩).events := by
  exact claim9_crash_isolation
    { readResult := fun r =>
        if r = "s/2024-01/x.md".toList then .ok ⟨[], "cx".toList⟩
        else .ok ⟨[], "c".toList⟩,
      genText := fun p =>
        if p = "PROMPT cx".toList then .ok ⟨[], 0, 0, 0⟩
        else .ok ⟨"out".toList, 0, 0, 0⟩,
      writeOutcome := fun _ => none,
      hookResult := fun _ => .ok (),
      docCounts := fun _ => [] }
    ⟨"d".toList, "ts".toList, [("s".toList, "PROMPT {CONTENT}".toList)], 1⟩
    ["s/2024-01/a.md".toList] ["s/2024-01/b.md".toList] "s/2024-01/x.md".toList
    [] 0 [] "Failed to process content: empty LLM response".toList
    (by decide) rfl rfl

theorem findFrom_isSome_iff (pat : Str) :
    ∀ (s : Str) (i : Nat),
      (findFrom pat s i).isSome ↔ ∃ j, pat.isPrefixOf (s.drop j) := by
  intro s
  induction s with
  | nil =>
    intro i
    cases hp : pat.isPrefixOf ([] : Str) with
    | true => simp [findFrom, hp, List.drop_nil]
    | false => simp [findFrom, hp, List.drop_nil]
  | cons c t ih =>
    intro i
    cases hp : pat.isPrefixOf (c :: t) with
    | true =>
      constructor
      · intro _
        exact ⟨0, hp⟩
      · intro _
        simp [findFrom, hp]
    | false =>
      have h1 : findFrom pat (c :: t) i = findFrom pat t (i + 1) := by
        simp [findFrom, hp]
      rw [h1, ih (i + 1)]
      constructor
      · rintro ⟨j, hj⟩
        exact ⟨j + 1, hj⟩
      · rintro ⟨j, hj⟩
        cases j with
        | zero =>
          rw [List.drop_zero] at hj
          rw [hp] at hj
          exact absurd hj (by simp)
        | succ j2 => exact ⟨j2, hj⟩

theorem readRawContent_no_open (file : Str)
    (ho : "---\n".toList.isPrefixOf file = false) :
    readRawContent file
      = .error "Invalid raw file format: no yaml header.".toList := by
  unfold readRawContent
  rw [ho]
  rfl

theorem readRawContent_no_close (file : Str)
    (he : headerEnd file = none) :
    readRawContent file
      = .error "Invalid raw file format: no yaml header.".toList := by
  unfold readRawContent
  cases ho : "---\n".toList.isPrefixOf file with
  | false => rfl
  | true => rw [he]; rfl

theorem readRawContent_eq_afterEnd (file : Str) (e : Nat)
    (ho : "---\n".toList.isPrefixOf file = true)
    (he : headerEnd file = some e) :
    readRawContent file = readRawAfterEnd file e := by
  unfold readRawContent
  rw [ho, he]
  rfl

/-- Claim C7: readRawContent errors exactly on structural damage.  It
returns a parse exactly when the file opens with a "---" line, the
closing delimiter search succeeds, and the header text parses to a
key-value mapping; in that case the result is that mapping with the
body after the closing delimiter; the delimiter search succeeds exactly
when some closing delimiter occurs; and it returns a structural error
exactly when the well-formedness conjunction fails — no malformed
header is silently coerced. -/
theorem claim7_structural_errors (file : Str) :
    ((∃ m b, readRawContent file = .ok (m, b)) ↔
      (hasHeaderOpen file ∧ ∃ e m, headerEnd file = some e ∧
        miniYamlParse (headerSliceAt file e) = some (YamlVal.vmap m))) ∧
    (∀ e m, hasHeaderOpen file → headerEnd file = some e →
      miniYamlParse (headerSliceAt file e) = some (YamlVal.vmap m) →
      readRawContent file = .ok (m, bodyAfter file e)) ∧
    ((headerEnd file).isSome ↔ hasHeaderClose file) ∧
    ((∃ msg, readRawContent file = .error msg) ↔
      ¬ (hasHeaderOpen file ∧ ∃ e m, headerEnd file = some e ∧
        miniYamlParse (headerSliceAt file e) = some (YamlVal.vmap m))) := by
  have hokat : ∀ e m, "---\n".toList.isPrefixOf file = true →
      headerEnd file = some e →
      miniYamlParse (headerSliceAt file e) = some (YamlVal.vmap m) →
      readRawContent file = .ok (m, bodyAfter file e) := by
    intro e m ho he hp
    rw [readRawContent_eq_afterEnd file e ho he]
    unfold readRawAfterEnd
    rw [hp]
  have hiff : (∃ m b, readRawContent file = .ok (m, b)) ↔
      (hasHeaderOpen file ∧ ∃ e m, headerEnd file = some e ∧
        miniYamlParse (headerSliceAt file e) = some (YamlVal.vmap m)) := by
    constructor
    · rintro ⟨m, b, hok⟩
      cases ho : "---\n".toList.isPrefixOf file with
      | false =>
        rw [readRawContent_no_open file ho] at hok
        exact absurd hok (by simp)
      | true =>
        cases he : headerEnd file with
        | none =>
          rw [readRawContent_no_close file he] at hok
          exact absurd hok (by simp)
        | some e =>
          refine ⟨ho, e, ?_⟩
          rw [readRawContent_eq_afterEnd file e ho he] at hok
          unfold readRawAfterEnd at hok
          cases hp : miniYamlParse (headerSliceAt file e) with
          | none => rw [hp] at hok; exact absurd hok (by simp)
          | some v =>
            cases v with
            | vmap m2 => exact ⟨m2, rfl, rfl⟩
            | vlist => rw [hp] at hok; exact absurd hok (by simp)
            | vscalar => rw [hp] at hok; exact absurd hok (by simp)
            | vnull => rw [hp] at hok; exact absurd hok (by simp)
    · rintro ⟨ho, e, m, he, hp⟩
      exact ⟨m, bodyAfter file e, hokat e m ho he hp⟩
  refine ⟨hiff, hokat, findFrom_isSome_iff "\n---".toList (file.drop 4) 4, ?_⟩
  constructor
  · rintro ⟨msg, hmsg⟩ hcond
    obtain ⟨m, b, hok⟩ := hiff.mpr hcond
    rw [hmsg] at hok
    exact absurd hok (by simp)
  · intro hcond
    cases hr : readRawContent file with
    | ok r => exact absurd (hiff.mp ⟨r.1, r.2, by rw [hr]⟩) hcond
    | error msg => exact ⟨msg, rfl⟩

/-- Witness for C7: a well-formed raw file with one scalar tag parses
to that mapping and the body after the delimiter block. -/
theorem claim7_structural_errors_witness :
    readRawContent "---\na: b\n---\n\nbody".toList
      = .ok ([("a".toList, TagValue.str "b".toList)], "\nbody".toList) :=
  (claim7_structural_errors "---\na: b\n---\n\nbody".toList).2.1 8
    [("a".toList, TagValue.str "b".toList)] rfl (by decide) (by decide)

theorem ws_char_cases (c : Char) (h : c.isWhitespace = true) :
    c = ' ' ∨ c = '\t' ∨ c = '\r' ∨ c = '\n' := by
  have h2 := h
  simp [Char.isWhitespace] at h2
  tauto

theorem not_ws_of_safeKeyChar (c : Char) (h : safeKeyChar c = true) :
    c.isWhitespace = false := by
  cases hw : c.isWhitespace with
  | false => rfl
  | true =>
    rcases ws_char_cases c hw with h1 | h1 | h1 | h1 <;> subst h1 <;>
      exact absurd h (by decide)

theorem not_ws_of_digit (c : Char) (h : c.isDigit = true) :
    c.isWhitespace = false := by
  cases hw : c.isWhitespace with
  | false => rfl
  | true =>
    rcases ws_char_cases c hw with h1 | h1 | h1 | h1 <;> subst h1 <;>
      exact absurd h (by decide)

theorem ne_nl_of_safeKeyChar (c : Char) (h : safeKeyChar c = true) :
    (c == '\n') = false := by
  cases hb : c == '\n' with
  | false => rfl
  | true => rw [eq_of_beq hb] at h; exact absurd h (by decide)

theorem ne_nl_of_plainValChar (c : Char) (h : plainValChar c = true) :
    (c == '\n') = false := by
  cases hb : c == '\n' with
  | false => rfl
  | true => rw [eq_of_beq hb] at h; exact absurd h (by decide)

theorem ne_nl_of_digit (c : Char) (h : c.isDigit = true) :
    (c == '\n') = false := by
  cases hb : c == '\n' with
  | false => rfl
  | true => rw [eq_of_beq hb] at h; exact absurd h (by decide)

theorem ne_dash_of_safeKeyChar (c : Char) (h : safeKeyChar c = true) :
    (c == '-') = false := by
  cases hb : c == '-' with
  | false => rfl
  | true => rw [eq_of_beq hb] at h; exact absurd h (by decide)

theorem ne_space_of_safeKeyChar (c : Char) (h : safeKeyChar c = true) :
    (' ' == c) = false := by
  cases hb : ' ' == c with
  | false => rfl
  | true => rw [← eq_of_beq hb] at h; exact absurd h (by decide)

theorem getLastD_irrel (l : Str) (d d' : Char) (h : l ≠ []) :
    l.getLastD d = l.getLastD d' := by
  cases l with
  | nil => exact absurd rfl h
  | cons c t => rw [List.getLastD_cons, List.getLastD_cons]

theorem getLastD_append_ne (xs : Str) :
    ∀ (ys : Str) (d : Char), ys ≠ [] → (xs ++ ys).getLastD d = ys.getLastD d := by
  induction xs with
  | nil => intro ys d _; rfl
  | cons c t ih =>
    intro ys d hne
    rw [List.cons_append, List.getLastD_cons, ih ys c hne]
    exact getLastD_irrel ys c d hne

theorem getLastD_mem (l : Str) : ∀ (d : Char), l ≠ [] → l.getLastD d ∈ l := by
  induction l with
  | nil => intro d h; exact absurd rfl h
  | cons c t ih =>
    intro d _
    rw [List.getLastD_cons]
    cases ht : t with
    | nil => exact List.mem_cons_self c []
    | cons x xs2 =>
      have hmem := ih c (by rw [ht]; exact List.cons_ne_nil x xs2)
      rw [ht] at hmem
      exact List.mem_cons_of_mem c hmem

theorem digitChar_isDigit (d : Nat) (h : d < 10) :
    (Nat.digitChar d).isDigit = true := by
  interval_cases d <;> rfl

theorem digitChar_toNat (d : Nat) (h : d < 10) :
    (Nat.digitChar d).toNat - 48 = d := by
  interval_cases d <;> rfl

theorem natToCharsAux_acc (fuel : Nat) :
    ∀ n acc, natToCharsAux fuel n acc = natToCharsAux fuel n [] ++ acc := by
  induction fuel with
  | zero => intro n acc; rfl
  | succ f ih =>
    intro n acc
    simp only [natToCharsAux]
    by_cases h0 : n / 10 = 0
    · rw [if_pos h0, if_pos h0]
      rfl
    · rw [if_neg h0, if_neg h0]
      rw [ih (n / 10) (Nat.digitChar (n % 10) :: acc),
        ih (n / 10) [Nat.digitChar (n % 10)]]
      simp

theorem natToCharsAux_digits (fuel : Nat) :
    ∀ n, 0 < n → n ≤ fuel → ∀ c ∈ natToCharsAux fuel n [], c.isDigit = true := by
  induction fuel with
  | zero => intro n h0 hle; omega
  | succ f ih =>
    intro n h0 hle c hc
    simp only [natToCharsAux] at hc
    by_cases hd : n / 10 = 0
    · rw [if_pos hd] at hc
      rw [List.mem_singleton.mp hc]
      exact digitChar_isDigit _ (Nat.mod_lt n (by omega))
    · rw [if_neg hd, natToCharsAux_acc] at hc
      rcases List.mem_append.mp hc with h1 | h1
      · exact ih (n / 10) (Nat.pos_of_ne_zero hd) (by omega) c h1
      · rw [List.mem_singleton.mp h1]
        exact digitChar_isDigit _ (Nat.mod_lt n (by omega))

theorem natToCharsAux_ne_nil (fuel n : Nat) (h0 : 0 < n) (hle : n ≤ fuel) :
    natToCharsAux fuel n [] ≠ [] := by
  cases fuel with
  | zero => omega
  | succ f =>
    simp only [natToCharsAux]
    by_cases hd : n / 10 = 0
    · rw [if_pos hd]; simp
    · rw [if_neg hd, natToCharsAux_acc]; simp

theorem foldl_natToCharsAux (fuel : Nat) :
    ∀ n a, 0 < n → n ≤ fuel →
      List.foldl (fun a c => a * 10 + (c.toNat - 48)) a (natToCharsAux fuel n [])
        = a * 10 ^ (natToCharsAux fuel n []).length + n := by
  induction fuel with
  | zero => intro n a h0 hle; omega
  | succ f ih =>
    intro n a h0 hle
    simp only [natToCharsAux]
    by_cases hd : n / 10 = 0
    · rw [if_pos hd]
      simp only [List.foldl_cons, List.foldl_nil, List.length_cons,
        List.length_nil, pow_one, zero_add]
      rw [digitChar_toNat (n % 10) (by omega)]
      have hn : n % 10 = n := Nat.mod_eq_of_lt (by omega)
      rw [hn]
    · rw [if_neg hd, natToCharsAux_acc f (n / 10) [Nat.digitChar (n % 10)]]
      rw [List.foldl_append]
      rw [ih (n / 10) a (Nat.pos_of_ne_zero hd) (by omega)]
      simp only [List.foldl_cons, List.foldl_nil, List.length_append,
        List.length_cons, List.length_nil, zero_add]
      rw [digitChar_toNat (n % 10) (Nat.mod_lt n (by omega))]
      have key : (a * 10 ^ (natToCharsAux f (n / 10) []).length + n / 10) * 10
          + n % 10
          = a * (10 ^ (natToCharsAux f (n / 10) []).length * 10)
            + (10 * (n / 10) + n % 10) := by ring
      rw [key, Nat.div_add_mod, ← pow_succ]

theorem natToChars_ne_nil (n : Nat) : natToChars n ≠ [] := by
  unfold natToChars
  by_cases h : n = 0
  · rw [if_pos h]; simp
  · rw [if_neg h]
    exact natToCharsAux_ne_nil n n (Nat.pos_of_ne_zero h) (le_refl n)

theorem natToChars_digits (n : Nat) : ∀ c ∈ natToChars n, c.isDigit = true := by
  unfold natToChars
  by_cases h : n = 0
  · rw [if_pos h]
    intro c hc
    rw [List.mem_singleton.mp hc]
    rfl
  · rw [if_neg h]
    exact natToCharsAux_digits n n (Nat.pos_of_ne_zero h) (le_refl n)

theorem parseNatChars_natToChars (n : Nat) :
    parseNatChars (natToChars n) = some n := by
  unfold parseNatChars
  rw [if_pos ⟨natToChars_ne_nil n,
    List.all_eq_true.mpr (fun c hc => natToChars_digits n c hc)⟩]
  congr 1
  by_cases h : n = 0
  · subst h; rfl
  · unfold natToChars
    rw [if_neg h, foldl_natToCharsAux n n 0 (Nat.pos_of_ne_zero h) (le_refl n)]
    simp

theorem parseIntChars_intToChars (m : Int) :
    parseIntChars (intToChars m) = some m := by
  unfold intToChars
  by_cases hneg : m < 0
  · rw [if_pos hneg]
    simp only [parseIntChars, if_true]
    rw [parseNatChars_natToChars]
    simp only [Option.map_some']
    congr 1
    rw [Int.ofNat_eq_natCast]
    omega
  · rw [if_neg hneg]
    obtain ⟨c, t, hct⟩ : ∃ c t, natToChars m.toNat = c :: t := by
      cases hh : natToChars m.toNat with
      | nil => exact absurd hh (natToChars_ne_nil _)
      | cons c t => exact ⟨c, t, rfl⟩
    rw [hct]
    have hcd : c.isDigit = true :=
      natToChars_digits m.toNat c (hct ▸ List.mem_cons_self c t)
    have hcne : ¬ (c = '-') := fun he => by
      rw [he] at hcd; exact absurd hcd (by decide)
    simp only [parseIntChars]
    rw [if_neg hcne, ← hct, parseNatChars_natToChars]
    simp [Int.toNat_of_nonneg (by omega : (0 : Int) ≤ m)]

theorem intToChars_ne_nil (m : Int) : intToChars m ≠ [] := by
  unfold intToChars
  by_cases h : m < 0
  · rw [if_pos h]; simp
  · rw [if_neg h]; exact natToChars_ne_nil _

theorem intToChars_chars (m : Int) :
    ∀ c ∈ intToChars m, c.isDigit = true ∨ c = '-' := by
  unfold intToChars
  by_cases h : m < 0
  · rw [if_pos h]
    intro c hc
    rcases List.mem_cons.mp hc with h1 | h1
    · exact Or.inr h1
    · exact Or.inl (natToChars_digits _ c h1)
  · rw [if_neg h]
    intro c hc
    exact Or.inl (natToChars_digits _ c hc)

theorem intToChars_last_digit (m : Int) :
    ((intToChars m).getLastD ' ').isDigit = true := by
  unfold intToChars
  by_cases h : m < 0
  · rw [if_pos h, List.getLastD_cons]
    exact natToChars_digits _ _ (getLastD_mem _ '-' (natToChars_ne_nil _))
  · rw [if_neg h]
    exact natToChars_digits _ _ (getLastD_mem _ ' ' (natToChars_ne_nil _))

theorem parseScalarChars_int (m : Int) :
    parseScalarChars (intToChars m) = .num m := by
  have hne1 : ¬ (intToChars m = "true".toList) := by
    intro he
    have h1 := parseIntChars_intToChars m
    rw [he] at h1
    rw [show parseIntChars "true".toList = none from rfl] at h1
    exact Option.noConfusion h1
  have hne2 : ¬ (intToChars m = "false".toList) := by
    intro he
    have h1 := parseIntChars_intToChars m
    rw [he] at h1
    rw [show parseIntChars "false".toList = none from rfl] at h1
    exact Option.noConfusion h1
  unfold parseScalarChars
  rw [if_neg hne1, if_neg hne2, parseIntChars_intToChars]

theorem parseScalarChars_bool (b : Bool) :
    parseScalarChars (boolChars b) = .boolean b := by
  cases b <;> rfl

theorem parseIntChars_of_plain (v : Str) (h : plainVal v = true) :
    parseIntChars v = none := by
  cases v with
  | nil => exact absurd h (by decide)
  | cons c t =>
    have hcne : ¬ (c = '-') := fun he => by
      rw [he] at h
      exact Bool.noConfusion h
    have hnumC : (!((c :: t).all numericLikeChar)) = true := by
      have h2 := h
      unfold plainVal at h2
      simp only [Bool.and_eq_true] at h2
      tauto
    have hnotall : ((c :: t).all Char.isDigit) = false := by
      cases hall : (c :: t).all Char.isDigit with
      | false => rfl
      | true =>
        have hnum : ((c :: t).all numericLikeChar) = true :=
          List.all_eq_true.mpr (fun x hx => by
            have hxd := List.all_eq_true.mp hall x hx
            unfold numericLikeChar
            rw [hxd]
            rfl)
        rw [hnum] at hnumC
        exact Bool.noConfusion hnumC
    simp only [parseIntChars]
    rw [if_neg hcne]
    unfold parseNatChars
    rw [if_neg (fun hcon => by rw [hnotall] at hcon; exact Bool.noConfusion hcon.2)]
    rfl

theorem parseScalarChars_of_plain (v : Str) (h : plainVal v = true) :
    parseScalarChars v = .str v := by
  have hne1 : ¬ (v = "true".toList) := fun he => by
    rw [he] at h; exact absurd h (by decide)
  have hne2 : ¬ (v = "false".toList) := fun he => by
    rw [he] at h; exact absurd h (by decide)
  unfold parseScalarChars
  rw [if_neg hne1, if_neg hne2, parseIntChars_of_plain v h]

theorem safeKey_shape (k : Str) (hk : safeKey k = true) :
    ∃ kc kt, k = kc :: kt ∧ safeKeyChar kc = true ∧ kt.all safeKeyChar = true := by
  cases k with
  | nil => exact absurd hk (by decide)
  | cons kc kt =>
    have h2 := hk
    unfold safeKey at h2
    simp only [Bool.and_eq_true] at h2
    have hall : (kc :: kt).all safeKeyChar = true := by tauto
    simp only [List.all_cons, Bool.and_eq_true] at hall
    exact ⟨kc, kt, rfl, hall.1, hall.2⟩

theorem goodHeaderPairs_cons (k : Str) (hv : HVal) (rest : List (Str × HVal))
    (hg : goodHeaderPairs ((k, hv) :: rest) = true) :
    safeKey k = true ∧ goodHVal hv = true ∧ goodHeaderPairs rest = true := by
  unfold goodHeaderPairs at hg ⊢
  simp only [List.all_cons, Bool.and_eq_true] at hg
  refine ⟨?_, ?_, ?_⟩ <;> tauto

theorem splitFirstColon_safe (k : Str) :
    ∀ (accRev r : Str), k.all safeKeyChar = true →
      splitFirstColon accRev (k ++ ':' :: r) = some (accRev.reverse ++ k, r) := by
  induction k with
  | nil =>
    intro accRev r _
    simp [splitFirstColon]
  | cons c t ih =>
    intro accRev r hall
    simp only [List.all_cons, Bool.and_eq_true] at hall
    have hcne : ¬ (c = ':') := fun he => by
      rw [he] at hall; exact absurd hall.1 (by decide)
    rw [List.cons_append]
    simp only [splitFirstColon]
    rw [if_neg hcne, ih (c :: accRev) r hall.2]
    simp

theorem keyLine_scalar (k v : Str) (hk : safeKey k = true) :
    keyLine (k ++ ':' :: ' ' :: v)
      = some (k, if v = "[]".toList then LineKind.emptyA else LineKind.scalarV v) := by
  have hall : k.all safeKeyChar = true := by
    have h2 := hk
    unfold safeKey at h2
    simp only [Bool.and_eq_true] at h2
    tauto
  unfold keyLine
  rw [splitFirstColon_safe k [] (' ' :: v) hall]
  simp only [List.reverse_nil, List.nil_append]
  rw [hk]
  show (if v = "[]".toList then some (k, LineKind.emptyA)
      else some (k, LineKind.scalarV v))
    = some (k, if v = "[]".toList then LineKind.emptyA else LineKind.scalarV v)
  by_cases hv : v = "[]".toList
  · rw [if_pos hv, if_pos hv]
  · rw [if_neg hv, if_neg hv]

theorem keyLine_block (k : Str) (hk : safeKey k = true) :
    keyLine (k ++ [':']) = some (k, LineKind.openBlock) := by
  have hall : k.all safeKeyChar = true := by
    have h2 := hk
    unfold safeKey at h2
    simp only [Bool.and_eq_true] at h2
    tauto
  unfold keyLine
  rw [splitFirstColon_safe k [] [] hall]
  simp [hk]

theorem parsePairsAux_scalar (f : Nat) (l : Str) (ls : List Str) (k v : Str)
    (hl : keyLine l = some (k, LineKind.scalarV v)) :
    parsePairsAux (Nat.succ f) (l :: ls)
      = (parsePairsAux f ls).map (fun t => (k, parseScalarChars v) :: t) := by
  simp only [parsePairsAux]
  rw [hl]

theorem parsePairsAux_emptyA (f : Nat) (l : Str) (ls : List Str) (k : Str)
    (hl : keyLine l = some (k, LineKind.emptyA)) :
    parsePairsAux (Nat.succ f) (l :: ls)
      = (parsePairsAux f ls).map (fun t => (k, TagValue.arr []) :: t) := by
  simp only [parsePairsAux]
  rw [hl]

theorem parsePairsAux_block (f : Nat) (l : Str) (ls : List Str) (k : Str)
    (hl : keyLine l = some (k, LineKind.openBlock)) :
    parsePairsAux (Nat.succ f) (l :: ls)
      = (if (takeItems ls).1.1.isEmpty then none
         else (parsePairsAux f (takeItems ls).1.2).map
           (fun t => (k, TagValue.arr (takeItems ls).1.1) :: t)) := by
  simp only [parsePairsAux]
  rw [hl]

theorem takeItems_not_item (tail : List Str)
    (htail : ∀ l2 rest2, tail = l2 :: rest2 → "  - ".toList.isPrefixOf l2 = false) :
    (takeItems tail).1 = ([], tail) := by
  cases tail with
  | nil => rfl
  | cons l2 rest2 =>
    simp only [takeItems]
    rw [htail l2 rest2 rfl]
    rfl

theorem takeItems_deco (tail : List Str)
    (htail : ∀ l2 rest2, tail = l2 :: rest2 → "  - ".toList.isPrefixOf l2 = false) :
    ∀ items : List Str,
      (takeItems (items.map (fun it => ' ' :: ' ' :: '-' :: ' ' :: it) ++ tail)).1
        = (items, tail) := by
  intro items
  induction items with
  | nil => simpa using takeItems_not_item tail htail
  | cons it its ih =>
    simp only [List.map_cons, List.cons_append]
    simp only [takeItems]
    rw [show ("  - ".toList.isPrefixOf (' ' :: ' ' :: '-' :: ' ' :: it)) = true
      by simp [List.isPrefixOf]]
    have h1 : (takeItems (its.map (fun x => ' ' :: ' ' :: '-' :: ' ' :: x)
        ++ tail)).1.1 = its := by rw [ih]
    have h2 : (takeItems (its.map (fun x => ' ' :: ' ' :: '-' :: ' ' :: x)
        ++ tail)).1.2 = tail := by rw [ih]
    simp [h1, h2]

theorem yamlLines_first_key (h : List (Str × HVal)) (hg : goodHeaderPairs h = true) :
    ∀ l2 rest2, yamlLines h = l2 :: rest2 →
      ∃ c t2, l2 = c :: t2 ∧ safeKeyChar c = true := by
  induction h with
  | nil => intro l2 rest2 he; exact absurd he (by simp [yamlLines])
  | cons p rest ih =>
    intro l2 rest2 he
    obtain ⟨k, hv⟩ := p
    obtain ⟨hk, hhv, hgrest⟩ := goodHeaderPairs_cons k hv rest hg
    obtain ⟨kc, kt, hksh, hkc, hktall⟩ := safeKey_shape k hk
    cases hv with
    | undef => exact ih hgrest l2 rest2 he
    | val tv =>
      cases tv with
      | str s =>
        rw [show yamlLines ((k, HVal.val (TagValue.str s)) :: rest)
          = (k ++ ':' :: ' ' :: s) :: yamlLines rest from rfl] at he
        injection he with h1 h2
        exact ⟨kc, kt ++ ':' :: ' ' :: s,
          by rw [← h1, hksh, List.cons_append], hkc⟩
      | num n =>
        rw [show yamlLines ((k, HVal.val (TagValue.num n)) :: rest)
          = (k ++ ':' :: ' ' :: intToChars n) :: yamlLines rest from rfl] at he
        injection he with h1 h2
        exact ⟨kc, kt ++ ':' :: ' ' :: intToChars n,
          by rw [← h1, hksh, List.cons_append], hkc⟩
      | boolean b =>
        rw [show yamlLines ((k, HVal.val (TagValue.boolean b)) :: rest)
          = (k ++ ':' :: ' ' :: boolChars b) :: yamlLines rest from rfl] at he
        injection he with h1 h2
        exact ⟨kc, kt ++ ':' :: ' ' :: boolChars b,
          by rw [← h1, hksh, List.cons_append], hkc⟩
      | arr items =>
        cases items with
        | nil =>
          rw [show yamlLines ((k, HVal.val (TagValue.arr [])) :: rest)
            = (k ++ ':' :: ' ' :: '[' :: [']']) :: yamlLines rest from rfl] at he
          injection he with h1 h2
          exact ⟨kc, kt ++ ':' :: ' ' :: '[' :: [']'],
            by rw [← h1, hksh, List.cons_append], hkc⟩
        | cons it its =>
          rw [show yamlLines ((k, HVal.val (TagValue.arr (it :: its))) :: rest)
            = (k ++ [':']) :: ((it :: its).map
                (fun item => ' ' :: ' ' :: '-' :: ' ' :: item)
              ++ yamlLines rest) from rfl] at he
          injection he with h1 h2
          exact ⟨kc, kt ++ [':'],
            by rw [← h1, hksh, List.cons_append], hkc⟩

theorem yamlLines_not_item (h : List (Str × HVal)) (hg : goodHeaderPairs h = true) :
    ∀ l2 rest2, yamlLines h = l2 :: rest2 →
      "  - ".toList.isPrefixOf l2 = false := by
  intro l2 rest2 he
  obtain ⟨c, t2, hl2, hc⟩ := yamlLines_first_key h hg l2 rest2 he
  rw [hl2]
  have hsp := ne_space_of_safeKeyChar c hc
  simp [List.isPrefixOf, hsp]

theorem parsePairsAux_yamlLines (h : List (Str × HVal)) :
    ∀ fuel, goodHeaderPairs h = true → (yamlLines h).length ≤ fuel →
      parsePairsAux fuel (yamlLines h) = some (visibleHeader h) := by
  induction h with
  | nil =>
    intro fuel _ _
    cases fuel <;> rfl
  | cons p rest ih =>
    intro fuel hg hlen
    obtain ⟨k, hv⟩ := p
    obtain ⟨hk, hhv, hgrest⟩ := goodHeaderPairs_cons k hv rest hg
    cases hv with
    | undef => exact ih fuel hgrest hlen
    | val tv =>
      cases tv with
      | str s =>
        have hp : plainVal s = true := hhv
        rw [show yamlLines ((k, HVal.val (TagValue.str s)) :: rest)
          = (k ++ ':' :: ' ' :: s) :: yamlLines rest from rfl] at hlen ⊢
        cases fuel with
        | zero => simp at hlen
        | succ f =>
          have hkl := keyLine_scalar k s hk
          rw [if_neg (show ¬ (s = "[]".toList) from fun he => by
            rw [he] at hp; exact absurd hp (by decide))] at hkl
          rw [parsePairsAux_scalar f _ _ k s hkl]
          rw [ih f hgrest (by simp only [List.length_cons] at hlen; omega)]
          rw [parseScalarChars_of_plain s hp]
          rfl
      | num n =>
        rw [show yamlLines ((k, HVal.val (TagValue.num n)) :: rest)
          = (k ++ ':' :: ' ' :: intToChars n) :: yamlLines rest from rfl] at hlen ⊢
        cases fuel with
        | zero => simp at hlen
        | succ f =>
          have hkl := keyLine_scalar k (intToChars n) hk
          rw [if_neg (show ¬ (intToChars n = "[]".toList) from fun he => by
            rcases intToChars_chars n '['
                (by rw [he]; exact List.mem_cons_self _ _) with h1 | h1
            · exact absurd h1 (by decide)
            · exact absurd h1 (by decide))] at hkl
          rw [parsePairsAux_scalar f _ _ k (intToChars n) hkl]
          rw [ih f hgrest (by simp only [List.length_cons] at hlen; omega)]
          rw [parseScalarChars_int n]
          rfl
      | boolean b =>
        rw [show yamlLines ((k, HVal.val (TagValue.boolean b)) :: rest)
          = (k ++ ':' :: ' ' :: boolChars b) :: yamlLines rest from rfl] at hlen ⊢
        cases fuel with
        | zero => simp at hlen
        | succ f =>
          have hkl := keyLine_scalar k (boolChars b) hk
          rw [if_neg (show ¬ (boolChars b = "[]".toList) by
            cases b <;> decide)] at hkl
          rw [parsePairsAux_scalar f _ _ k (boolChars b) hkl]
          rw [ih f hgrest (by simp only [List.length_cons] at hlen; omega)]
          rw [parseScalarChars_bool b]
          rfl
      | arr items =>
        cases items with
        | nil =>
          rw [show yamlLines ((k, HVal.val (TagValue.arr [])) :: rest)
            = (k ++ ':' :: ' ' :: '[' :: [']']) :: yamlLines rest from rfl]
            at hlen ⊢
          cases fuel with
          | zero => simp at hlen
          | succ f =>
            have hkl := keyLine_scalar k ('[' :: [']']) hk
            rw [if_pos (show ('[' :: [']']) = "[]".toList by decide)] at hkl
            rw [parsePairsAux_emptyA f _ _ k hkl]
            rw [ih f hgrest (by simp only [List.length_cons] at hlen; omega)]
            rfl
        | cons it its =>
          rw [show yamlLines ((k, HVal.val (TagValue.arr (it :: its))) :: rest)
            = (k ++ [':']) :: ((it :: its).map
                (fun item => ' ' :: ' ' :: '-' :: ' ' :: item)
              ++ yamlLines rest) from rfl] at hlen ⊢
          cases fuel with
          | zero => simp at hlen
          | succ f =>
            rw [parsePairsAux_block f _ _ k (keyLine_block k hk)]
            have htk := takeItems_deco (yamlLines rest)
              (yamlLines_not_item rest hgrest) (it :: its)
            have htk1 : (takeItems ((it :: its).map
                (fun item => ' ' :: ' ' :: '-' :: ' ' :: item)
              ++ yamlLines rest)).1.1 = it :: its := by rw [htk]
            have htk2 : (takeItems ((it :: its).map
                (fun item => ' ' :: ' ' :: '-' :: ' ' :: item)
              ++ yamlLines rest)).1.2 = yamlLines rest := by rw [htk]
            rw [htk1, htk2]
            rw [if_neg (by simp)]
            rw [ih f hgrest (by
              simp only [List.length_cons, List.length_append] at hlen
              omega)]
            rfl

theorem lineOk_parts (l : Str) (h : lineOk l = true) :
    l.isEmpty = false ∧ (∀ c ∈ l, (c == '\n') = false)
      ∧ (l.headD ' ' == '-') = false
      ∧ Char.isWhitespace (l.getLastD ' ') = false
      ∧ isBlankLine l = false := by
  unfold lineOk at h
  simp only [Bool.and_eq_true, Bool.not_eq_true'] at h
  refine ⟨by tauto, fun c hc => ?_, by tauto, by tauto, by tauto⟩
  have hall : l.all (fun c => !(c == '\n')) = true := by tauto
  have h2 := List.all_eq_true.mp hall c hc
  simpa using h2

theorem splitNl_no_nl (l : Str) (h : ∀ c ∈ l, (c == '\n') = false) :
    splitNl l = [l] := by
  induction l with
  | nil => rfl
  | cons c t ih =>
    have hc : ¬ (c = '\n') := fun he => by
      have h2 := h c (List.mem_cons_self c t)
      rw [he] at h2
      exact absurd h2 (by decide)
    simp only [splitNl]
    rw [if_neg hc, ih (fun x hx => h x (List.mem_cons_of_mem c hx))]

theorem splitNl_append (l : Str) (z : Str) (h : ∀ c ∈ l, (c == '\n') = false) :
    splitNl (l ++ '\n' :: z) = l :: splitNl z := by
  induction l with
  | nil =>
    simp only [List.nil_append, splitNl]
    rw [if_pos trivial]
  | cons c t ih =>
    have hc : ¬ (c = '\n') := fun he => by
      have h2 := h c (List.mem_cons_self c t)
      rw [he] at h2
      exact absurd h2 (by decide)
    rw [List.cons_append]
    simp only [splitNl]
    rw [if_neg hc, ih (fun x hx => h x (List.mem_cons_of_mem c hx))]

theorem joinNl_cons_cons (l l2 : Str) (t : List Str) :
    joinNl (l :: l2 :: t) = l ++ '\n' :: joinNl (l2 :: t) := rfl

theorem splitNl_joinNl (ls : List Str) :
    ls ≠ [] → (∀ l ∈ ls, ∀ c ∈ l, (c == '\n') = false) →
      splitNl (joinNl ls) = ls := by
  induction ls with
  | nil => intro hne _; exact absurd rfl hne
  | cons l t ih =>
    intro _ h
    cases t with
    | nil => exact splitNl_no_nl l (h l (List.mem_cons_self l []))
    | cons l2 t2 =>
      rw [joinNl_cons_cons]
      rw [splitNl_append l _ (h l (List.mem_cons_self l (l2 :: t2)))]
      rw [ih (List.cons_ne_nil l2 t2)
        (fun x hx => h x (List.mem_cons_of_mem l hx))]

theorem filter_nonblank (ls : List Str) (h : ∀ l ∈ ls, isBlankLine l = false) :
    ls.filter (fun l => !isBlankLine l) = ls :=
  List.filter_eq_self.mpr (fun a ha => by rw [h a ha]; rfl)

theorem last_decomp (l : Str) : l ≠ [] → ∃ w, l = w ++ [l.getLastD ' '] := by
  induction l with
  | nil => intro hne; exact absurd rfl hne
  | cons c t ih =>
    intro _
    by_cases ht : t = []
    · subst ht
      exact ⟨[], rfl⟩
    · obtain ⟨w, hw⟩ := ih ht
      refine ⟨c :: w, ?_⟩
      rw [List.getLastD_cons, List.cons_append]
      congr 1
      rw [← getLastD_irrel t ' ' c ht]
      exact hw

theorem joinNl_head_shape (l : Str) (t : List Str) :
    ∃ w, joinNl (l :: t) = l ++ w := by
  cases t with
  | nil => exact ⟨[], (List.append_nil l).symm⟩
  | cons l2 t2 => exact ⟨'\n' :: joinNl (l2 :: t2), rfl⟩

theorem joinNl_ne_nil (ls : List Str) (l : Str) (t : List Str)
    (hls : ls = l :: t) (hl : l.isEmpty = false) : joinNl ls ≠ [] := by
  subst hls
  obtain ⟨w, hw⟩ := joinNl_head_shape l t
  rw [hw]
  cases l with
  | nil => exact absurd hl (by decide)
  | cons c t2 => exact fun hc => List.noConfusion hc

theorem joinNl_last_not_ws (ls : List Str) :
    ls ≠ [] → (∀ l ∈ ls, lineOk l = true) →
      Char.isWhitespace ((joinNl ls).getLastD ' ') = false := by
  induction ls with
  | nil => intro hne _; exact absurd rfl hne
  | cons l t ih =>
    intro _ hg
    cases t with
    | nil => exact (lineOk_parts l (hg l (List.mem_cons_self l []))).2.2.2.1
    | cons l2 t2 =>
      rw [joinNl_cons_cons]
      rw [getLastD_append_ne l ('\n' :: joinNl (l2 :: t2)) ' '
        (List.cons_ne_nil _ _)]
      rw [List.getLastD_cons]
      have hJne : joinNl (l2 :: t2) ≠ [] :=
        joinNl_ne_nil (l2 :: t2) l2 t2 rfl
          (lineOk_parts l2 (hg l2 (List.mem_cons_of_mem l
            (List.mem_cons_self _ _)))).1
      rw [getLastD_irrel _ '\n' ' ' hJne]
      exact ih (List.cons_ne_nil l2 t2)
        (fun x hx => hg x (List.mem_cons_of_mem l hx))

theorem trimEnd_no_ws (s : Str) (hne : s ≠ [])
    (hlast : Char.isWhitespace (s.getLastD ' ') = false) :
    trimEndChars s = s := by
  obtain ⟨w, hw⟩ := last_decomp s hne
  unfold trimEndChars
  conv_lhs => rw [hw]
  rw [List.reverse_append]
  simp only [List.reverse_cons, List.reverse_nil, List.nil_append,
    List.singleton_append]
  rw [List.dropWhile_cons, hlast]
  simp only [Bool.false_eq_true, if_false]
  rw [List.reverse_cons, List.reverse_reverse]
  exact hw.symm

theorem trim_header (ls : List Str)
    (hjne : joinNl ls ≠ [])
    (hh : Char.isWhitespace ((joinNl ls).headD ' ') = false)
    (hl : Char.isWhitespace ((joinNl ls).getLastD ' ') = false) :
    trimChars (joinNl ls ++ ['\n']) = joinNl ls := by
  obtain ⟨c1, t1, h1⟩ : ∃ c1 t1, joinNl ls = c1 :: t1 := by
    cases hj : joinNl ls with
    | nil => exact absurd hj hjne
    | cons a b => exact ⟨a, b, rfl⟩
  have hc1 : Char.isWhitespace c1 = false := by
    rw [h1] at hh
    simpa using hh
  obtain ⟨w, hw⟩ := last_decomp (joinNl ls) hjne
  unfold trimChars
  rw [h1, List.cons_append, List.dropWhile_cons, hc1]
  simp only [Bool.false_eq_true, if_false]
  rw [← List.cons_append, ← h1, hw]
  rw [List.reverse_append, List.reverse_append]
  simp only [List.reverse_cons, List.reverse_nil, List.nil_append,
    List.singleton_append]
  rw [List.dropWhile_cons]
  rw [show Char.isWhitespace '\n' = true from rfl]
  rw [if_pos rfl]
  rw [List.dropWhile_cons, hl]
  simp only [Bool.false_eq_true, if_false]
  rw [List.reverse_cons, List.reverse_reverse]

theorem findFrom_at (pat : Str) (z : Str) (i : Nat)
    (h : pat.isPrefixOf z = true) : findFrom pat z i = some i := by
  cases z with
  | nil => simp [findFrom, h]
  | cons c t => simp [findFrom, h]

theorem findFrom_through_line (l : Str) :
    ∀ (z : Str) (i : Nat), (∀ c ∈ l, (c == '\n') = false) →
      findFrom "\n---".toList (l ++ z) i
        = findFrom "\n---".toList z (i + l.length) := by
  induction l with
  | nil => intro z i _; simp
  | cons c t ih =>
    intro z i h
    have hc : ('\n' == c) = false := by
      cases hb : '\n' == c with
      | false => rfl
      | true =>
        have h2 := h c (List.mem_cons_self c t)
        rw [← eq_of_beq hb] at h2
        exact absurd h2 (by decide)
    rw [List.cons_append]
    simp only [findFrom]
    rw [show ("\n---".toList.isPrefixOf (c :: (t ++ z))) = false by
      simp [List.isPrefixOf, hc]]
    simp only [Bool.false_eq_true, if_false]
    rw [ih z (i + 1) (fun x hx => h x (List.mem_cons_of_mem c hx))]
    rw [show i + 1 + t.length = i + (c :: t).length by
      simp only [List.length_cons]; omega]

theorem findFrom_joined (rest : Str) :
    ∀ ls : List Str, (∀ l ∈ ls, lineOk l = true) →
      ∀ i, findFrom "\n---".toList (joinNl ls ++ rest) i
        = findFrom "\n---".toList rest (i + (joinNl ls).length) := by
  intro ls
  induction ls with
  | nil => intro _ i; simp [joinNl]
  | cons l t ih =>
    intro hg i
    have hlnl : ∀ c ∈ l, (c == '\n') = false :=
      (lineOk_parts l (hg l (List.mem_cons_self l t))).2.1
    cases t with
    | nil => exact findFrom_through_line l rest i hlnl
    | cons l2 t2 =>
      rw [joinNl_cons_cons, List.append_assoc, List.cons_append]
      rw [findFrom_through_line l _ i hlnl]
      have hp2 := lineOk_parts l2 (hg l2 (List.mem_cons_of_mem l
        (List.mem_cons_self l2 t2)))
      obtain ⟨c2, t2x, hl2c⟩ : ∃ c2 t2x, l2 = c2 :: t2x := by
        cases hcl : l2 with
        | nil => rw [hcl] at hp2; exact absurd hp2.1 (by decide)
        | cons a b => exact ⟨a, b, rfl⟩
      have hc2 : (c2 == '-') = false := by
        have hhd := hp2.2.2.1
        rw [hl2c] at hhd
        simpa using hhd
      have hc2x : ('-' == c2) = false := by
        cases hb : '-' == c2 with
        | false => rfl
        | true =>
          rw [← eq_of_beq hb] at hc2
          exact absurd hc2 (by decide)
      obtain ⟨w, hj2⟩ := joinNl_head_shape l2 t2
      have hnp : ("\n---".toList.isPrefixOf
          ('\n' :: (joinNl (l2 :: t2) ++ rest))) = false := by
        rw [hj2, hl2c, List.cons_append]
        simp [List.isPrefixOf, hc2x]
      simp only [findFrom]
      rw [hnp]
      simp only [Bool.false_eq_true, if_false]
      rw [ih (fun x hx => hg x (List.mem_cons_of_mem l hx)) (i + l.length + 1)]
      rw [show i + l.length + 1 + (joinNl (l2 :: t2)).length
          = i + (l ++ '\n' :: joinNl (l2 :: t2)).length by
        rw [List.length_append, List.length_cons]
        omega]

theorem plain_ne_nil (v : Str) (hp : plainVal v = true) : v ≠ [] :=
  fun he => by rw [he] at hp; exact absurd hp (by decide)

theorem plain_chars (v : Str) (hp : plainVal v = true) :
    v.all plainValChar = true := by
  cases v with
  | nil => exact absurd hp (by decide)
  | cons c t =>
    have h2 := hp
    unfold plainVal at h2
    simp only [Bool.and_eq_true] at h2
    tauto

theorem plain_chars_ne_nl (v : Str) (hp : plainVal v = true) :
    ∀ c ∈ v, (c == '\n') = false := fun c hc =>
  ne_nl_of_plainValChar c (List.all_eq_true.mp (plain_chars v hp) c hc)

theorem plain_last_not_ws (v : Str) (hp : plainVal v = true) :
    Char.isWhitespace (v.getLastD ' ') = false := by
  cases v with
  | nil => exact absurd hp (by decide)
  | cons c t =>
    have h2 := hp
    unfold plainVal at h2
    simp only [Bool.and_eq_true, Bool.not_eq_true'] at h2
    tauto

theorem lineOk_key_scalar (k v : Str) (hk : safeKey k = true)
    (hvnl : ∀ c ∈ v, (c == '\n') = false)
    (hvlast : Char.isWhitespace (v.getLastD ' ') = false) :
    lineOk (k ++ ':' :: ' ' :: v) = true := by
  obtain ⟨kc, kt, hksh, hkc, hktall⟩ := safeKey_shape k hk
  subst hksh
  rw [List.cons_append]
  unfold lineOk
  have c2 : ((kc :: (kt ++ ':' :: ' ' :: v)).all (fun c => !(c == '\n'))) = true := by
    apply List.all_eq_true.mpr
    intro x hx
    rcases List.mem_cons.mp hx with h2 | h2
    · rw [h2]
      simp [ne_nl_of_safeKeyChar kc hkc]
    · rcases List.mem_append.mp h2 with h3 | h3
      · simp [ne_nl_of_safeKeyChar x (List.all_eq_true.mp hktall x h3)]
      · rcases List.mem_cons.mp h3 with h4 | h4
        · rw [h4]; decide
        · rcases List.mem_cons.mp h4 with h5 | h5
          · rw [h5]; decide
          · simp [hvnl x h5]
  have c4 : Char.isWhitespace ((kc :: (kt ++ ':' :: ' ' :: v)).getLastD ' ')
      = false := by
    rw [List.getLastD_cons,
      getLastD_append_ne kt (':' :: ' ' :: v) kc (List.cons_ne_nil _ _),
      List.getLastD_cons, List.getLastD_cons]
    exact hvlast
  have c5 : isBlankLine (kc :: (kt ++ ':' :: ' ' :: v)) = false := by
    cases hb : isBlankLine (kc :: (kt ++ ':' :: ' ' :: v)) with
    | false => rfl
    | true =>
      unfold isBlankLine at hb
      have h2 := List.all_eq_true.mp hb ':'
        (List.mem_cons_of_mem kc (List.mem_append_right kt
          (List.mem_cons_self _ _)))
      exact absurd h2 (by decide)
  rw [show (kc :: (kt ++ ':' :: ' ' :: v)).isEmpty = false from rfl]
  rw [c2]
  rw [show ((kc :: (kt ++ ':' :: ' ' :: v)).headD ' ' == '-')
    = (kc == '-') from rfl]
  rw [ne_dash_of_safeKeyChar kc hkc, c4, c5]
  rfl

theorem lineOk_key_block (k : Str) (hk : safeKey k = true) :
    lineOk (k ++ [':']) = true := by
  obtain ⟨kc, kt, hksh, hkc, hktall⟩ := safeKey_shape k hk
  subst hksh
  rw [List.cons_append]
  unfold lineOk
  have c2 : ((kc :: (kt ++ [':'])).all (fun c => !(c == '\n'))) = true := by
    apply List.all_eq_true.mpr
    intro x hx
    rcases List.mem_cons.mp hx with h2 | h2
    · rw [h2]
      simp [ne_nl_of_safeKeyChar kc hkc]
    · rcases List.mem_append.mp h2 with h3 | h3
      · simp [ne_nl_of_safeKeyChar x (List.all_eq_true.mp hktall x h3)]
      · rw [List.mem_singleton.mp h3]
        decide
  have c4 : Char.isWhitespace ((kc :: (kt ++ [':'])).getLastD ' ') = false := by
    rw [List.getLastD_cons,
      getLastD_append_ne kt [':'] kc (List.cons_ne_nil _ _),
      List.getLastD_cons]
    decide
  have c5 : isBlankLine (kc :: (kt ++ [':'])) = false := by
    cases hb : isBlankLine (kc :: (kt ++ [':'])) with
    | false => rfl
    | true =>
      unfold isBlankLine at hb
      have h2 := List.all_eq_true.mp hb ':'
        (List.mem_cons_of_mem kc (List.mem_append_right kt
          (List.mem_cons_self _ _)))
      exact absurd h2 (by decide)
  rw [show (kc :: (kt ++ [':'])).isEmpty = false from rfl]
  rw [c2]
  rw [show ((kc :: (kt ++ [':'])).headD ' ' == '-') = (kc == '-') from rfl]
  rw [ne_dash_of_safeKeyChar kc hkc, c4, c5]
  rfl

theorem lineOk_item (it : Str) (hp : plainVal it = true) :
    lineOk (' ' :: ' ' :: '-' :: ' ' :: it) = true := by
  unfold lineOk
  have hvnl := plain_chars_ne_nl it hp
  have hvlast := plain_last_not_ws it hp
  have c2 : ((' ' :: ' ' :: '-' :: ' ' :: it).all (fun c => !(c == '\n')))
      = true := by
    apply List.all_eq_true.mpr
    intro x hx
    rcases List.mem_cons.mp hx with h1 | h1
    · subst h1; decide
    · rcases List.mem_cons.mp h1 with h2 | h2
      · subst h2; decide
      · rcases List.mem_cons.mp h2 with h3 | h3
        · subst h3; decide
        · rcases List.mem_cons.mp h3 with h4 | h4
          · subst h4; decide
          · simp [hvnl x h4]
  have c4 : Char.isWhitespace ((' ' :: ' ' :: '-' :: ' ' :: it).getLastD ' ')
      = false := by
    rw [List.getLastD_cons, List.getLastD_cons, List.getLastD_cons,
      List.getLastD_cons]
    exact hvlast
  have c5 : isBlankLine (' ' :: ' ' :: '-' :: ' ' :: it) = false := by
    cases hb : isBlankLine (' ' :: ' ' :: '-' :: ' ' :: it) with
    | false => rfl
    | true =>
      unfold isBlankLine at hb
      have h2 := List.all_eq_true.mp hb '-'
        (List.mem_cons_of_mem _ (List.mem_cons_of_mem _
          (List.mem_cons_self _ _)))
      exact absurd h2 (by decide)
  rw [show (' ' :: ' ' :: '-' :: ' ' :: it).isEmpty = false from rfl]
  rw [c2]
  rw [show ((' ' :: ' ' :: '-' :: ' ' :: it).headD ' ' == '-') = false
    from rfl]
  rw [c4, c5]
  rfl

theorem yamlLines_lineOk (h : List (Str × HVal)) :
    goodHeaderPairs h = true → ∀ l ∈ yamlLines h, lineOk l = true := by
  induction h with
  | nil => intro _ l hl; exact absurd hl (by simp [yamlLines])
  | cons p rest ih =>
    intro hg l hl
    obtain ⟨k, hv⟩ := p
    obtain ⟨hk, hhv, hgrest⟩ := goodHeaderPairs_cons k hv rest hg
    cases hv with
    | undef => exact ih hgrest l hl
    | val tv =>
      cases tv with
      | str s =>
        rw [show yamlLines ((k, HVal.val (TagValue.str s)) :: rest)
          = (k ++ ':' :: ' ' :: s) :: yamlLines rest from rfl] at hl
        rcases List.mem_cons.mp hl with h1 | h1
        · rw [h1]
          exact lineOk_key_scalar k s hk (plain_chars_ne_nl s hhv)
            (plain_last_not_ws s hhv)
        · exact ih hgrest l h1
      | num n =>
        rw [show yamlLines ((k, HVal.val (TagValue.num n)) :: rest)
          = (k ++ ':' :: ' ' :: intToChars n) :: yamlLines rest from rfl] at hl
        rcases List.mem_cons.mp hl with h1 | h1
        · rw [h1]
          refine lineOk_key_scalar k (intToChars n) hk ?_
            (not_ws_of_digit _ (intToChars_last_digit n))
          intro c hc
          rcases intToChars_chars n c hc with hd | hd
          · exact ne_nl_of_digit c hd
          · rw [hd]; decide
        · exact ih hgrest l h1
      | boolean b =>
        rw [show yamlLines ((k, HVal.val (TagValue.boolean b)) :: rest)
          = (k ++ ':' :: ' ' :: boolChars b) :: yamlLines rest from rfl] at hl
        rcases List.mem_cons.mp hl with h1 | h1
        · rw [h1]
          exact lineOk_key_scalar k (boolChars b) hk
            (by cases b <;> decide) (by cases b <;> decide)
        · exact ih hgrest l h1
      | arr items =>
        cases items with
        | nil =>
          rw [show yamlLines ((k, HVal.val (TagValue.arr [])) :: rest)
            = (k ++ ':' :: ' ' :: '[' :: [']']) :: yamlLines rest from rfl] at hl
          rcases List.mem_cons.mp hl with h1 | h1
          · rw [h1]
            exact lineOk_key_scalar k ('[' :: [']']) hk (by decide) (by decide)
          · exact ih hgrest l h1
        | cons it its =>
          rw [show yamlLines ((k, HVal.val (TagValue.arr (it :: its))) :: rest)
            = (k ++ [':']) :: ((it :: its).map
                (fun item => ' ' :: ' ' :: '-' :: ' ' :: item)
              ++ yamlLines rest) from rfl] at hl
          rcases List.mem_cons.mp hl with h1 | h1
          · rw [h1]
            exact lineOk_key_block k hk
          · rcases List.mem_append.mp h1 with h2 | h2
            · rcases List.mem_map.mp h2 with ⟨x, hx, hxe⟩
              rw [← hxe]
              have hax : (it :: its).all plainVal = true := hhv
              exact lineOk_item x (List.all_eq_true.mp hax x hx)
            · exact ih hgrest l h2

theorem jsUpsert_good (obj : List (Str × HVal)) (k : Str) (v : HVal)
    (ho : goodHeaderPairs obj = true) (hk : safeKey k = true)
    (hv : goodHVal v = true) :
    goodHeaderPairs (jsUpsert obj k v) = true := by
  unfold jsUpsert
  by_cases hany : (obj.any (fun p => p.1 == k)) = true
  · rw [if_pos hany]
    unfold goodHeaderPairs at ho ⊢
    apply List.all_eq_true.mpr
    intro p hp
    rcases List.mem_map.mp hp with ⟨q, hq, hqe⟩
    have hqg := List.all_eq_true.mp ho q hq
    simp only [Bool.and_eq_true] at hqg
    by_cases hqk : (q.1 == k) = true
    · rw [if_pos hqk] at hqe
      rw [← hqe]
      simp only [Bool.and_eq_true]
      exact ⟨hqg.1, hv⟩
    · rw [if_neg hqk] at hqe
      rw [← hqe]
      simp only [Bool.and_eq_true]
      exact ⟨hqg.1, hqg.2⟩
  · rw [if_neg hany]
    unfold goodHeaderPairs at ho ⊢
    apply List.all_eq_true.mpr
    intro p hp
    rcases List.mem_append.mp hp with h1 | h1
    · exact List.all_eq_true.mp ho p h1
    · rw [List.mem_singleton.mp h1]
      simp only [Bool.and_eq_true]
      exact ⟨hk, hv⟩

theorem foldl_upsert_good (tags : Tags) :
    ∀ obj, goodHeaderPairs obj = true → goodTags tags = true →
      goodHeaderPairs (tags.foldl (fun o p => jsUpsert o p.1 (.val p.2)) obj)
        = true := by
  induction tags with
  | nil => intro obj ho _; exact ho
  | cons p t ih =>
    intro obj ho hgt
    unfold goodTags at hgt
    simp only [List.all_cons, Bool.and_eq_true] at hgt
    rw [List.foldl_cons]
    apply ih
    · refine jsUpsert_good obj p.1 (.val p.2) ho (by tauto) ?_
      have h1 : goodVal p.2 = true := by tauto
      exact h1
    · unfold goodTags
      exact List.all_eq_true.mpr (fun x hx => by
        have h2 : t.all (fun q => safeKey q.1 && goodVal q.2) = true := by tauto
        exact List.all_eq_true.mp h2 x hx)

theorem buildYamlHeader_good (now : JsDate) (i : EatInput)
    (h : goodInput now i) :
    goodHeaderPairs (buildYamlHeader now i) = true := by
  obtain ⟨htags, hlabel, hsource, hid, hpub, hts, _⟩ := h
  have hbase : goodHeaderPairs
      [("id".toList, match i.id with
          | some s => HVal.val (TagValue.str s) | none => HVal.undef),
       ("title".toList, HVal.val (TagValue.str i.label)),
       ("created_at".toList, HVal.val (TagValue.str
         (isoTimestampChars (i.creationDate.getD now))))] = true := by
    unfold goodHeaderPairs
    apply List.all_eq_true.mpr
    intro p hp
    rcases List.mem_cons.mp hp with h1 | h1
    · rw [h1]
      simp only [Bool.and_eq_true]
      refine ⟨by decide, ?_⟩
      cases hi : i.id with
      | none => decide
      | some s =>
        rw [hi] at hid
        exact hid
    · rcases List.mem_cons.mp h1 with h2 | h2
      · rw [h2]
        simp only [Bool.and_eq_true]
        exact ⟨by decide, hlabel⟩
      · rw [List.mem_singleton.mp h2]
        simp only [Bool.and_eq_true]
        exact ⟨by decide, hts⟩
  have h1 := foldl_upsert_good i.tags _ hbase htags
  have h2 := jsUpsert_good _ "source".toList (HVal.val (TagValue.str i.source))
    h1 (by decide) hsource
  unfold buildYamlHeader
  cases hip : i.publisher with
  | none => exact h2
  | some p =>
    by_cases hpe : p.isEmpty
    · simp only [hpe, if_true]
      exact h2
    · simp only [hpe, Bool.false_eq_true, if_false]
      refine jsUpsert_good _ _ _ h2 (by decide) ?_
      have hplain : plainVal p = true := by
        rw [hip] at hpub
        simp only [Option.all] at hpub
        rcases (by simpa using hpub :
            p.isEmpty = true ∨ plainVal p = true) with h3 | h3
        · exact absurd h3 hpe
        · exact h3
      exact hplain

theorem yamlLines_ne_nil (h : List (Str × HVal)) (k : Str) (v : TagValue) :
    (k, HVal.val v) ∈ h → yamlLines h ≠ [] := by
  induction h with
  | nil => intro hmem; exact absurd hmem (List.not_mem_nil _)
  | cons p rest ih =>
    intro hmem
    obtain ⟨k1, hv1⟩ := p
    cases hv1 with
    | undef =>
      rcases List.mem_cons.mp hmem with h1 | h1
      · exact HVal.noConfusion (congrArg Prod.snd h1)
      · exact ih h1
    | val tv =>
      cases tv with
      | str s => exact fun hc => List.noConfusion hc
      | num n => exact fun hc => List.noConfusion hc
      | boolean b => exact fun hc => List.noConfusion hc
      | arr items =>
        cases items with
        | nil => exact fun hc => List.noConfusion hc
        | cons it its => exact fun hc => List.noConfusion hc

theorem mem_of_objLookup (hh : List (Str × HVal)) (k : Str) (hv : HVal)
    (h : objLookup hh k = some hv) : (k, hv) ∈ hh := by
  unfold objLookup at h
  cases hf : hh.find? (fun p => p.1 == k) with
  | none => rw [hf] at h; exact absurd h (by simp)
  | some q =>
    rw [hf] at h
    simp only [Option.map_some'] at h
    have hq := List.find?_some hf
    have hmem := List.mem_of_find?_eq_some hf
    obtain ⟨q1, q2⟩ := q
    have hq1 : q1 = k := eq_of_beq hq
    have hq2 : q2 = hv := Option.some.inj h
    rw [← hq1, ← hq2]
    exact hmem

theorem miniYamlParse_header (h : List (Str × HVal))
    (hg : goodHeaderPairs h = true) (hne : yamlLines h ≠ []) :
    miniYamlParse (joinNl (yamlLines h))
      = some (.vmap (visibleHeader h)) := by
  have hok := yamlLines_lineOk h hg
  have hnl : ∀ l ∈ yamlLines h, ∀ c ∈ l, (c == '\n') = false :=
    fun l hl => (lineOk_parts l (hok l hl)).2.1
  have hnb : ∀ l ∈ yamlLines h, isBlankLine l = false :=
    fun l hl => (lineOk_parts l (hok l hl)).2.2.2.2
  obtain ⟨l1, rest1, hls⟩ : ∃ l1 rest1, yamlLines h = l1 :: rest1 := by
    cases hc : yamlLines h with
    | nil => exact absurd hc hne
    | cons a b => exact ⟨a, b, rfl⟩
  unfold miniYamlParse
  rw [splitNl_joinNl (yamlLines h) hne hnl,
    filter_nonblank (yamlLines h) hnb, hls]
  show miniYamlBody l1 rest1 = some (.vmap (visibleHeader h))
  obtain ⟨c1, t1x, hl1, hc1⟩ := yamlLines_first_key h hg l1 rest1 hls
  have hnp : ("- ".toList.isPrefixOf l1) = false := by
    rw [hl1]
    have hc1x : ('-' == c1) = false := by
      cases hb : '-' == c1 with
      | false => rfl
      | true =>
        have h2 := hc1
        rw [← eq_of_beq hb] at h2
        exact absurd h2 (by decide)
    simp [List.isPrefixOf, hc1x]
  have hne1 : ¬ (l1 = ['-']) := fun he => by
    rw [he] at hl1
    injection hl1 with ha hb
    rw [← ha] at hc1
    exact absurd hc1 (by decide)
  unfold miniYamlBody
  rw [if_neg (by
    rw [hnp]
    simp [hne1])]
  rw [← hls]
  unfold parsePairs
  rw [parsePairsAux_yamlLines h (yamlLines h).length hg (le_refl _)]

theorem tagsLookup_visibleHeader (hh : List (Str × HVal)) :
    ∀ (k : Str) (v : TagValue), objLookup hh k = some (.val v) →
      tagsLookup (visibleHeader hh) k = some v := by
  induction hh with
  | nil => intro k v h; exact absurd h (by simp [objLookup])
  | cons p rest ih =>
    intro k v h
    obtain ⟨k1, hv1⟩ := p
    rw [objLookup_cons] at h
    by_cases hk1 : (((k1, hv1) : Str × HVal).1 == k) = true
    · rw [if_pos hk1] at h
      cases hv1 with
      | undef => exact absurd (Option.some.inj h) (by simp)
      | val w =>
        have hw : w = v := by
          have h2 := Option.some.inj h
          injection h2 with hww
        rw [show visibleHeader ((k1, HVal.val w) :: rest)
          = (k1, w) :: visibleHeader rest from rfl]
        rw [tagsLookup_cons]
        rw [if_pos (show (((k1, w) : Str × TagValue).1 == k) = true from hk1)]
        rw [hw]
    · rw [if_neg hk1] at h
      cases hv1 with
      | undef =>
        rw [show visibleHeader ((k1, HVal.undef) :: rest)
          = visibleHeader rest from rfl]
        exact ih k v h
      | val w =>
        rw [show visibleHeader ((k1, HVal.val w) :: rest)
          = (k1, w) :: visibleHeader rest from rfl]
        rw [tagsLookup_cons]
        rw [if_neg (show ¬ (((k1, w) : Str × TagValue).1 == k) = true from hk1)]
        exact ih k v h

theorem slice_helper (J R : Str) :
    (("---\n".toList ++ (J ++ R)).take (J.length + 4)).drop 4 = J := by
  rw [show (("---\n".toList ++ (J ++ R)).take (J.length + 4)).drop 4
      = (J ++ R).take J.length from rfl]
  exact List.take_left J R

theorem drop_len_append (J : Str) :
    ∀ R : Str, (J ++ R).drop (J.length + 4) = R.drop 4 := by
  induction J with
  | nil => intro R; rfl
  | cons c t ih => intro R; exact ih R

theorem body_helper (J R : Str) :
    ("---\n".toList ++ (J ++ R)).drop (J.length + 4 + 4) = R.drop 4 := by
  rw [show ("---\n".toList ++ (J ++ R)).drop (J.length + 4 + 4)
      = (J ++ R).drop (J.length + 4) from rfl]
  exact drop_len_append J R

theorem buildRaw_header_eq (now : JsDate) (i : EatInput)
    (hgi : goodInput now i) :
    trimChars (yamlStringify (buildYamlHeader now i))
      = joinNl (yamlLines (buildYamlHeader now i)) := by
  have hg := buildYamlHeader_good now i hgi
  have hok := yamlLines_lineOk _ hg
  have hne : yamlLines (buildYamlHeader now i) ≠ [] :=
    yamlLines_ne_nil _ _ _
      (mem_of_objLookup _ _ _ (buildYamlHeader_lookup_source now i))
  obtain ⟨l1, rest1, hls⟩ :
      ∃ l1 rest1, yamlLines (buildYamlHeader now i) = l1 :: rest1 := by
    cases hc : yamlLines (buildYamlHeader now i) with
    | nil => exact absurd hc hne
    | cons a b => exact ⟨a, b, rfl⟩
  have hl1mem : l1 ∈ yamlLines (buildYamlHeader now i) := by
    rw [hls]; exact List.mem_cons_self l1 rest1
  have hjne : joinNl (yamlLines (buildYamlHeader now i)) ≠ [] :=
    joinNl_ne_nil _ l1 rest1 hls (lineOk_parts l1 (hok l1 hl1mem)).1
  obtain ⟨c1, t1x, hl1c, hc1⟩ :=
    yamlLines_first_key _ hg l1 rest1 hls
  have hh : Char.isWhitespace
      ((joinNl (yamlLines (buildYamlHeader now i))).headD ' ') = false := by
    rw [hls]
    obtain ⟨w, hw⟩ := joinNl_head_shape l1 rest1
    rw [hw, hl1c, List.cons_append]
    rw [show ((c1 :: (t1x ++ w)).headD ' ') = c1 from rfl]
    exact not_ws_of_safeKeyChar c1 hc1
  have hl : Char.isWhitespace
      ((joinNl (yamlLines (buildYamlHeader now i))).getLastD ' ') = false :=
    joinNl_last_not_ws _ hne hok
  unfold yamlStringify
  exact trim_header _ hjne hh hl

theorem readRaw_buildRaw (now : JsDate) (i : EatInput) (hgi : goodInput now i) :
    readRawContent (buildRawFileContent now i)
      = .ok (visibleHeader (buildYamlHeader now i),
          '\n' :: trimChars i.content) := by
  have hg := buildYamlHeader_good now i hgi
  have hok := yamlLines_lineOk _ hg
  have hne : yamlLines (buildYamlHeader now i) ≠ [] :=
    yamlLines_ne_nil _ _ _
      (mem_of_objLookup _ _ _ (buildYamlHeader_lookup_source now i))
  have hhdr := buildRaw_header_eq now i hgi
  have hfile : buildRawFileContent now i
      = "---\n".toList ++ (joinNl (yamlLines (buildYamlHeader now i))
        ++ ("\n---\n\n".toList ++ trimChars i.content)) := by
    unfold buildRawFileContent
    rw [hhdr]
    simp [List.append_assoc]
  have hopen : ("---\n".toList.isPrefixOf (buildRawFileContent now i))
      = true := by
    rw [hfile]
    simp [List.isPrefixOf]
  have hjne : joinNl (yamlLines (buildYamlHeader now i)) ≠ [] := by
    obtain ⟨l1, rest1, hls⟩ :
        ∃ l1 rest1, yamlLines (buildYamlHeader now i) = l1 :: rest1 := by
      cases hc : yamlLines (buildYamlHeader now i) with
      | nil => exact absurd hc hne
      | cons a b => exact ⟨a, b, rfl⟩
    have hl1mem : l1 ∈ yamlLines (buildYamlHeader now i) := by
      rw [hls]; exact List.mem_cons_self l1 rest1
    exact joinNl_ne_nil _ l1 rest1 hls (lineOk_parts l1 (hok l1 hl1mem)).1
  have hlast : Char.isWhitespace
      ((joinNl (yamlLines (buildYamlHeader now i))).getLastD ' ') = false :=
    joinNl_last_not_ws _ hne hok
  have hend : headerEnd (buildRawFileContent now i)
      = some ((joinNl (yamlLines (buildYamlHeader now i))).length + 4) := by
    unfold headerEnd
    rw [hfile]
    rw [show ("---\n".toList ++ (joinNl (yamlLines (buildYamlHeader now i))
        ++ ("\n---\n\n".toList ++ trimChars i.content))).drop 4
      = joinNl (yamlLines (buildYamlHeader now i))
        ++ ("\n---\n\n".toList ++ trimChars i.content) from rfl]
    rw [findFrom_joined _ _ hok 4]
    rw [findFrom_at _ _ _ (by simp [List.isPrefixOf])]
    rw [Nat.add_comm]
  have hslice : headerSliceAt (buildRawFileContent now i)
      ((joinNl (yamlLines (buildYamlHeader now i))).length + 4)
      = joinNl (yamlLines (buildYamlHeader now i)) := by
    unfold headerSliceAt
    rw [hfile, slice_helper]
    exact trimEnd_no_ws _ hjne hlast
  have hbody : bodyAfter (buildRawFileContent now i)
      ((joinNl (yamlLines (buildYamlHeader now i))).length + 4)
      = '\n' :: trimChars i.content := by
    unfold bodyAfter
    rw [hfile, body_helper]
    rfl
  rw [readRawContent_eq_afterEnd _ _ hopen hend]
  unfold readRawAfterEnd
  rw [hslice, miniYamlParse_header _ hg hne, hbody]

/-- Claim C4 (amended): header round-trip.  For every input whose tags,
label, source, id, publisher and rendered timestamp survive the
modelled YAML fragment, a raw record written by buildRawFileContent and
read back by readRawContent yields exactly the serialized header object
(standard fields plus caller tags under the documented source/publisher
precedence) with the tag values preserved, and a content body equal to
a newline followed by the submitted content trimmed of leading and
trailing whitespace — not the trimmed content itself; every caller tag
not named source or publisher is recovered verbatim. -/
theorem claim4_round_trip (now : JsDate) (i : EatInput) (h : goodInput now i) :
    readRawContent (buildRawFileContent now i)
      = .ok (visibleHeader (buildYamlHeader now i), '\n' :: trimChars i.content)
    ∧ (∀ k v, tagsLookup i.tags k = some v → k ≠ "source".toList →
        k ≠ "publisher".toList →
        tagsLookup (visibleHeader (buildYamlHeader now i)) k = some v) := by
  refine ⟨readRaw_buildRaw now i h, ?_⟩
  intro k v hkv hs hpk
  exact tagsLookup_visibleHeader _ k v
    (buildYamlHeader_lookup_tag now i k v h.2.2.2.2.2.2 hkv hs hpk)

/-- Counterexample to C4 as stated: the read-back body carries a leading
newline the store never strips, so it is not byte-for-byte the trimmed
content, and a caller tag named source is not recovered (it is
overwritten by the document's source field). -/
theorem claim4_counterexample :
    (readRawContent (buildRawFileContent ⟨2024, 1, 2, "10:00:00.000Z".toList⟩
        { content := "hi".toList, format := "text".toList,
          label := "doc".toList, source := "src".toList, publisher := none,
          id := none, creationDate := none,
          tags := [("source".toList, TagValue.str "mytag".toList)],
          overwrite := false })
      = .ok ([("title".toList, TagValue.str "doc".toList),
              ("created_at".toList,
                TagValue.str "2024-01-02T10:00:00.000Z".toList),
              ("source".toList, TagValue.str "src".toList)],
             '\n' :: trimChars "hi".toList))
    ∧ '\n' :: trimChars "hi".toList ≠ trimChars "hi".toList
    ∧ tagsLookup [("title".toList, TagValue.str "doc".toList),
              ("created_at".toList,
                TagValue.str "2024-01-02T10:00:00.000Z".toList),
              ("source".toList, TagValue.str "src".toList)] "source".toList
        ≠ some (TagValue.str "mytag".toList) :=
  ⟨rfl, by decide, by decide⟩

/-- Witness for C4: a concrete good input round-trips to the serialized
header with the body prefixed by one newline, and its caller tag is
recovered. -/
theorem claim4_round_trip_witness :
    readRawContent (buildRawFileContent ⟨2024, 1, 2, "10:00:00.000Z".toList⟩
        { content := "hello body".toList, format := "text".toList,
          label := "My Doc".toList, source := "web".toList, publisher := none,
          id := none, creationDate := none,
          tags := [("topic".toList, TagValue.str "news".toList)],
          overwrite := false })
      = .ok (visibleHeader (buildYamlHeader ⟨2024, 1, 2, "10:00:00.000Z".toList⟩
          { content := "hello body".toList, format := "text".toList,
            label := "My Doc".toList, source := "web".toList, publisher := none,
            id := none, creationDate := none,
            tags := [("topic".toList, TagValue.str "news".toList)],
            overwrite := false }),
          '\n' :: trimChars "hello body".toList)
    ∧ tagsLookup (visibleHeader
        (buildYamlHeader ⟨2024, 1, 2, "10:00:00.000Z".toList⟩
          { content := "hello body".toList, format := "text".toList,
            label := "My Doc".toList, source := "web".toList, publisher := none,
            id := none, creationDate := none,
            tags := [("topic".toList, TagValue.str "news".toList)],
            overwrite := false })) "topic".toList
        = some (TagValue.str "news".toList) :=
  ⟨(claim4_round_trip ⟨2024, 1, 2, "10:00:00.000Z".toList⟩
      { content := "hello body".toList, format := "text".toList,
        label := "My Doc".toList, source := "web".toList, publisher := none,
        id := none, creationDate := none,
        tags := [("topic".toList, TagValue.str "news".toList)],
        overwrite := false } (by decide)).1,
   (claim4_round_trip ⟨2024, 1, 2, "10:00:00.000Z".toList⟩
      { content := "hello body".toList, format := "text".toList,
        label := "My Doc".toList, source := "web".toList, publisher := none,
        id := none, creationDate := none,
        tags := [("topic".toList, TagValue.str "news".toList)],
        overwrite := false } (by decide)).2 "topic".toList
     (TagValue.str "news".toList) (by decide) (by decide) (by decide)⟩

/-- Claim C6: the result contract of eat.  A non-text format is
rejected immediately with the state untouched; a duplicate from
saveRawContent becomes a failure with nothing enqueued; an error
result's message is propagated; an added result enqueues exactly the
returned reference and succeeds with it. -/
theorem claim6_eat_contract (now : JsDate) (s : EatState) (i : EatInput)
    (io : Option Str) :
    (i.format ≠ "text".toList →
      eat now s i io = (s, .failure ("Unsupported format: ".toList ++ i.format))) ∧
    (∀ st ref, i.format = "text".toList →
      saveRawContent now s.raw i io = (st, .duplicate ref) →
      eat now s i io =
        ({ raw := st, queue := s.queue }, .failure "Document already exists.".toList)) ∧
    (∀ st msg, i.format = "text".toList →
      saveRawContent now s.raw i io = (st, .error msg) →
      eat now s i io = ({ raw := st, queue := s.queue }, .failure msg)) ∧
    (∀ st ref, i.format = "text".toList →
      saveRawContent now s.raw i io = (st, .added ref) →
      eat now s i io =
        ({ raw := st, queue := s.queue ++ [ref] }, .success "Content added.".toList ref)) := by
  refine ⟨fun hf => ?_, fun st ref hf hs => ?_, fun st msg hf hs => ?_,
    fun st ref hf hs => ?_⟩
  · unfold eat
    rw [if_pos hf]
  all_goals unfold eat
  all_goals rw [if_neg (by simp [hf]), hs]

/-- Witness for C6 at concrete inputs: one instance per branch. -/
theorem claim6_eat_contract_witness :
    (eat ⟨2024, 1, 15, "Z".toList⟩ ⟨[], []⟩
        { content := "c".toList, format := "pdf".toList, label := "L".toList,
          source := "src".toList, publisher := none, id := none,
          creationDate := some ⟨2024, 1, 15, "Z".toList⟩, tags := [],
          overwrite := false } none).2 =
      .failure ("Unsupported format: ".toList ++ "pdf".toList) ∧
    (eat ⟨2024, 1, 15, "Z".toList⟩ ⟨[], []⟩
        { content := "c".toList, format := "text".toList, label := "L".toList,
          source := "src".toList, publisher := none, id := none,
          creationDate := some ⟨2024, 1, 15, "Z".toList⟩, tags := [],
          overwrite := false } (some "disk full".toList)).2 =
      .failure "disk full".toList := by
  constructor
  · have h := (claim6_eat_contract ⟨2024, 1, 15, "Z".toList⟩ ⟨[], []⟩
      { content := "c".toList, format := "pdf".toList, label := "L".toList,
        source := "src".toList, publisher := none, id := none,
        creationDate := some ⟨2024, 1, 15, "Z".toList⟩, tags := [],
        overwrite := false } none).1 (by decide)
    rw [h]
  · have h := (claim6_eat_contract ⟨2024, 1, 15, "Z".toList⟩ ⟨[], []⟩
      { content := "c".toList, format := "text".toList, label := "L".toList,
        source := "src".toList, publisher := none, id := none,
        creationDate := some ⟨2024, 1, 15, "Z".toList⟩, tags := [],
        overwrite := false } (some "disk full".toList)).2.2.1 []
      ("disk full".toList) (by decide) (by decide)
    rw [h]

/-- Claim C3: duplicate detection is atomic.  When a raw file exists at
the derived path and overwrite is not set, saveRawContent answers
duplicate with that reference and leaves the store untouched (for any
injected I/O outcome, since the check precedes the write); and two eats
whose inputs map to the same reference, the second without overwrite,
yield success then the duplicate failure with exactly the first file on
disk, its content unchanged. -/
theorem claim3_duplicate_atomic (now now2 : JsDate) (st : Store)
    (i i2 : EatInput) (io io2 : Option Str) (q : List Str) :
    ((storeLookup st (refOfInput now i)).isSome → i.overwrite = false →
      saveRawContent now st i io = (st, .duplicate (refOfInput now i))) ∧
    (i.format = "text".toList → i2.format = "text".toList →
      refOfInput now2 i2 = refOfInput now i → i2.overwrite = false →
      eat now ⟨[], q⟩ i none =
        (⟨[(refOfInput now i, buildRawFileContent now i)], q ++ [refOfInput now i]⟩,
          .success "Content added.".toList (refOfInput now i)) ∧
      eat now2
          ⟨[(refOfInput now i, buildRawFileContent now i)], q ++ [refOfInput now i]⟩
          i2 io2 =
        (⟨[(refOfInput now i, buildRawFileContent now i)], q ++ [refOfInput now i]⟩,
          .failure "Document already exists.".toList)) := by
  constructor
  · intro h1 h2
    simp only [saveRawContent, h1, h2, if_true, Bool.not_false]
  · intro hf hf2 href hov
    constructor
    · unfold eat
      rw [if_neg (by simp [hf])]
      simp only [saveRawContent, storeLookup_nil, storeWrite_nil, Option.isSome_none]
      exact rfl
    · unfold eat
      rw [if_neg (by simp [hf2])]
      have hlook : storeLookup
          [(refOfInput now i, buildRawFileContent now i)] (refOfInput now2 i2)
          = some (buildRawFileContent now i) := by
        rw [href]
        exact storeLookup_singleton _ _
      simp only [saveRawContent, hlook, hov, Option.isSome_some, if_true,
        Bool.not_false]

/-- Witness for C3 at a concrete pair of inputs mapping to the same
reference (they differ in content and tags). -/
theorem claim3_duplicate_atomic_witness :
    eat ⟨2024, 1, 15, "Z".toList⟩
        ⟨[(refOfInput ⟨2024, 1, 15, "Z".toList⟩
            { content := "c1".toList, format := "text".toList, label := "L".toList,
              source := "src".toList, publisher := none, id := none,
              creationDate := some ⟨2024, 1, 15, "Z".toList⟩, tags := [],
              overwrite := false },
           buildRawFileContent ⟨2024, 1, 15, "Z".toList⟩
            { content := "c1".toList, format := "text".toList, label := "L".toList,
              source := "src".toList, publisher := none, id := none,
              creationDate := some ⟨2024, 1, 15, "Z".toList⟩, tags := [],
              overwrite := false })],
          [] ++ [refOfInput ⟨2024, 1, 15, "Z".toList⟩
            { content := "c1".toList, format := "text".toList, label := "L".toList,
              source := "src".toList, publisher := none, id := none,
              creationDate := some ⟨2024, 1, 15, "Z".toList⟩, tags := [],
              overwrite := false }]⟩
        { content := "c2".toList, format := "text".toList, label := "L".toList,
          source := "src".toList, publisher := none, id := none,
          creationDate := some ⟨2024, 1, 15, "Z".toList⟩,
          tags := [("k".toList, .str "v".toList)], overwrite := false } none
      = (⟨[(refOfInput ⟨2024, 1, 15, "Z".toList⟩
            { content := "c1".toList, format := "text".toList, label := "L".toList,
              source := "src".toList, publisher := none, id := none,
              creationDate := some ⟨2024, 1, 15, "Z".toList⟩, tags := [],
              overwrite := false },
           buildRawFileContent ⟨2024, 1, 15, "Z".toList⟩
            { content := "c1".toList, format := "text".toList, label := "L".toList,
              source := "src".toList, publisher := none, id := none,
              creationDate := some ⟨2024, 1, 15, "Z".toList⟩, tags := [],
              overwrite := false })],
          [] ++ [refOfInput ⟨2024, 1, 15, "Z".toList⟩
            { content := "c1".toList, format := "text".toList, label := "L".toList,
              source := "src".toList, publisher := none, id := none,
              creationDate := some ⟨2024, 1, 15, "Z".toList⟩, tags := [],
              overwrite := false }]⟩,
         .failure "Document already exists.".toList) := by
  have h := (claim3_duplicate_atomic ⟨2024, 1, 15, "Z".toList⟩
    ⟨2024, 1, 15, "Z".toList⟩ []
    { content := "c1".toList, format := "text".toList, label := "L".toList,
      source := "src".toList, publisher := none, id := none,
      creationDate := some ⟨2024, 1, 15, "Z".toList⟩, tags := [],
      overwrite := false }
    { content := "c2".toList, format := "text".toList, label := "L".toList,
      source := "src".toList, publisher := none, id := none,
      creationDate := some ⟨2024, 1, 15, "Z".toList⟩,
      tags := [("k".toList, .str "v".toList)], overwrite := false }
    none none []).2 (by decide) (by decide) (by decide) (by decide)
  exact h.2

end Greptor
